import Mathlib

/-!
# Verification of the cas-rs core (parser error recovery and algebraic simplifier)

This file embeds, in Lean 4, the parts of the `cas-rs` repository that the
frozen claims are about:

* the algebraic expression tree `Expr`/`Primary` and the default complexity
  heuristic `default_complexity` (`cas-math/src/algebra/simplify/mod.rs`);
* the simplification driver `inner_simplify_with` (same file), embedded as a
  fuel-indexed function, together with the rewrite rules
  (`cas-math/src/algebra/simplify/rules`, absent from the provided sources and
  therefore modelled from the specification's rule catalogue);
* the `Step` enumeration (`cas-math/src/algebra/simplify/step.rs`);
* the parser-side structures used by `Paren::std_parse`
  (`cas-parser/src/parser/paren.rs`) and `AssignTarget::try_from_with_op`
  (`cas-parser/src/parser/assign.rs`).

Numbers in the source are arbitrary-precision binary floats (`rug::Float`);
they are modelled as rationals `ℚ` (every finite float value is a rational;
counterexamples below use only dyadic rationals or integers, which are exactly
representable).  The non-finite values (infinities, NaN) are not representable
in this model; the one claim that touches them is settled through the
in-model overflow case, which exercises the same `unwrap` failure.

The `Vec<Expr>` children of `Add`, `Mul` and `Call` are modelled by the
mutually inductive list type `ExprList` (isomorphic to `List Expr`), so that
all recursions over the tree are structural and computations reduce inside
the kernel.
-/

namespace CasRs

mutual

/-- The primary (leaf) algebraic values, from the `Primary` enum used by
`cas-math/src/algebra/simplify/mod.rs` (its defining file,
`cas-math/src/algebra/expr.rs`, is not among the provided sources; the shape
is fixed by the specification's data model and by the uses in `mod.rs`):
a number, a symbol, or a function call. -/
inductive Primary where
  | Number (n : ℚ)
  | Symbol (s : String)
  | Call (name : String) (args : ExprList)

/-- The algebraic expression tree: `Primary`, n-ary `Add`, n-ary `Mul`, and
binary `Exp`, as in the specification's data model and the uses in
`cas-math/src/algebra/simplify/mod.rs`. -/
inductive Expr where
  | Primary (p : Primary)
  | Add (terms : ExprList)
  | Mul (factors : ExprList)
  | Exp (lhs rhs : Expr)

/-- A list of expressions (the `Vec<Expr>` of the source). -/
inductive ExprList where
  | nil
  | cons (head : Expr) (tail : ExprList)

end

/-- Convert an ordinary list of expressions into an `ExprList`. -/
def el : List Expr → ExprList
  | [] => .nil
  | e :: es => .cons e (el es)

/-- Number of expressions in an `ExprList` (`Vec::len`). -/
def ExprList.length : ExprList → ℕ
  | .nil => 0
  | .cons _ es => 1 + es.length

/-- Concatenation of two `ExprList`s. -/
def ExprList.append : ExprList → ExprList → ExprList
  | .nil, b => b
  | .cons e es, b => .cons e (es.append b)

/-- Shorthand for a number expression. -/
def num (q : ℚ) : Expr := .Primary (.Number q)

/-- Shorthand for a symbol expression. -/
def sym (s : String) : Expr := .Primary (.Symbol s)

mutual

/-- Structural (decidable) equality test for `Primary`. -/
def Primary.beq : Primary → Primary → Bool
  | .Number a, .Number b => a == b
  | .Symbol a, .Symbol b => a == b
  | .Call n a, .Call m b => n == m && ExprList.beq a b
  | _, _ => false

/-- Structural (decidable) equality test for `Expr`. -/
def Expr.beq : Expr → Expr → Bool
  | .Primary a, .Primary b => Primary.beq a b
  | .Add a, .Add b => ExprList.beq a b
  | .Mul a, .Mul b => ExprList.beq a b
  | .Exp a b, .Exp c d => Expr.beq a c && Expr.beq b d
  | _, _ => false

/-- Pointwise structural equality test for `ExprList`. -/
def ExprList.beq : ExprList → ExprList → Bool
  | .nil, .nil => true
  | .cons a as_, .cons b bs => Expr.beq a b && ExprList.beq as_ bs
  | _, _ => false

end

mutual

theorem primaryBeq_iff : ∀ a b : Primary, Primary.beq a b = true ↔ a = b
  | .Number a, .Number b => by simp [Primary.beq]
  | .Number _, .Symbol _ => by simp [Primary.beq]
  | .Number _, .Call _ _ => by simp [Primary.beq]
  | .Symbol _, .Number _ => by simp [Primary.beq]
  | .Symbol a, .Symbol b => by simp [Primary.beq]
  | .Symbol _, .Call _ _ => by simp [Primary.beq]
  | .Call _ _, .Number _ => by simp [Primary.beq]
  | .Call _ _, .Symbol _ => by simp [Primary.beq]
  | .Call n a, .Call m b => by simp [Primary.beq, exprListBeq_iff a b]

theorem exprBeq_iff : ∀ a b : Expr, Expr.beq a b = true ↔ a = b
  | .Primary a, .Primary b => by simp [Expr.beq, primaryBeq_iff a b]
  | .Primary _, .Add _ => by simp [Expr.beq]
  | .Primary _, .Mul _ => by simp [Expr.beq]
  | .Primary _, .Exp _ _ => by simp [Expr.beq]
  | .Add _, .Primary _ => by simp [Expr.beq]
  | .Add a, .Add b => by simp [Expr.beq, exprListBeq_iff a b]
  | .Add _, .Mul _ => by simp [Expr.beq]
  | .Add _, .Exp _ _ => by simp [Expr.beq]
  | .Mul _, .Primary _ => by simp [Expr.beq]
  | .Mul _, .Add _ => by simp [Expr.beq]
  | .Mul a, .Mul b => by simp [Expr.beq, exprListBeq_iff a b]
  | .Mul _, .Exp _ _ => by simp [Expr.beq]
  | .Exp _ _, .Primary _ => by simp [Expr.beq]
  | .Exp _ _, .Add _ => by simp [Expr.beq]
  | .Exp _ _, .Mul _ => by simp [Expr.beq]
  | .Exp a b, .Exp c d => by
    simp [Expr.beq, exprBeq_iff a c, exprBeq_iff b d]

theorem exprListBeq_iff : ∀ a b : ExprList, ExprList.beq a b = true ↔ a = b
  | .nil, .nil => by simp [ExprList.beq]
  | .nil, .cons _ _ => by simp [ExprList.beq]
  | .cons _ _, .nil => by simp [ExprList.beq]
  | .cons a as_, .cons b bs => by
    simp [ExprList.beq, exprBeq_iff a b, exprListBeq_iff as_ bs]

end

instance : DecidableEq Primary := fun a b =>
  decidable_of_iff (Primary.beq a b = true) (primaryBeq_iff a b)

instance : DecidableEq Expr := fun a b =>
  decidable_of_iff (Expr.beq a b = true) (exprBeq_iff a b)

instance : DecidableEq ExprList := fun a b =>
  decidable_of_iff (ExprList.beq a b = true) (exprListBeq_iff a b)

/-!
Arithmetic on the model numbers.  The operations are written at the level of
the numerator and denominator (with `Rat.normalize` for re-normalisation) so
that every computation below reduces inside the Lean kernel; each operation
agrees with the corresponding exact rational operation of the
arbitrary-precision library used by the source.
-/

/-- Exact rational addition (numerator/denominator level). -/
def qAdd (a b : ℚ) : ℚ :=
  Rat.normalize (a.num * b.den + b.num * a.den) (a.den * b.den)
    (Nat.mul_ne_zero a.den_nz b.den_nz)

/-- Absolute value of a rational (numerator/denominator level); models
`rug::Float::abs_ref`. -/
def qAbs (q : ℚ) : ℚ :=
  ⟨|q.num|, q.den, q.den_nz, by simpa [Int.natAbs_abs] using q.reduced⟩

/-- `true` when the rational is a (mathematical) integer. -/
def qIsInt (q : ℚ) : Bool := q.den == 1

/-- Round a rational to the nearest integer, ties to even.  This models the
conversion `rug::Float::to_integer`, which rounds to the nearest integer
(MPFR's round-to-nearest).  `q.num.fdiv q.den` is `⌊q⌋`; `r2` is twice the
fractional part, scaled by the denominator. -/
def rndNearest (q : ℚ) : ℤ :=
  let k := q.num.fdiv q.den
  let r2 := 2 * (q.num - k * q.den)
  if r2 < (q.den : ℤ) then k
  else if (q.den : ℤ) < r2 then k + 1
  else if k % 2 = 0 then k else k + 1

/-- Model of `rug::Float::to_integer` on a model number (a finite value):
rounds to the nearest integer.  On the actual `rug::Float` type this returns
`None` for the non-finite values (infinities and NaN), which are not
representable in this `ℚ`-valued model. -/
def floatToInteger (q : ℚ) : Option ℤ := some (rndNearest q)

/-- Model of `rug::Integer::to_usize`: succeeds exactly when the integer fits
in a 64-bit `usize`. -/
def integerToUsize (z : ℤ) : Option ℕ :=
  if 0 ≤ z ∧ z < 2 ^ 64 then some z.toNat else none

/-- The cost that `default_complexity` charges for one node of the tree
(`cas-math/src/algebra/simplify/mod.rs`, lines 32-45).  A `Number` is put
through `float(num.abs_ref()).to_integer().unwrap().to_usize().unwrap()`;
the two `unwrap`s are modelled by propagating `none` (a panic in Rust). -/
def nodeCost : Expr → Option ℕ
  | .Primary (.Number n) => (floatToInteger (qAbs n)).bind integerToUsize
  | .Primary (.Symbol s) => some s.length
  | .Primary (.Call name args) => some (name.length + args.length)
  | .Add ts => some (3 + ts.length)
  | .Mul fs => some (2 + fs.length)
  | .Exp _ _ => some 1

mutual

/-- Post-order traversal of an expression (children before the node), as
produced by `Expr::post_order_iter` in `cas-math` (the iterator itself lives
in the absent `expr.rs`; post-order is fixed by its name and the doc of
`default_complexity`).  Call arguments are part of the tree and are
traversed. -/
def postOrder : Expr → List Expr
  | .Primary (.Call name args) => postOrderList args ++ [.Primary (.Call name args)]
  | .Primary p => [.Primary p]
  | .Add ts => postOrderList ts ++ [.Add ts]
  | .Mul fs => postOrderList fs ++ [.Mul fs]
  | .Exp l r => postOrder l ++ postOrder r ++ [.Exp l r]

/-- Post-order traversal of each expression of an `ExprList`, concatenated. -/
def postOrderList : ExprList → List Expr
  | .nil => []
  | .cons e es => postOrder e ++ postOrderList es

end

/-- Addition on optional naturals; `none` (a panic) propagates. -/
def addO : Option ℕ → Option ℕ → Option ℕ
  | some a, some b => some (a + b)
  | _, _ => none

/-- Sum of a list of optional naturals; `none` (a Rust panic) propagates. -/
def optSum : List (Option ℕ) → Option ℕ
  | [] => some 0
  | o :: os => addO o (optSum os)

/-- The default complexity heuristic
(`default_complexity` in `cas-math/src/algebra/simplify/mod.rs`): the sum of
`nodeCost` over the post-order traversal of the expression.  The result is
`none` exactly when one of the `unwrap`s in the `Number` branch would panic. -/
def default_complexity (e : Expr) : Option ℕ :=
  optSum ((postOrder e).map nodeCost)

/-- Possible simplification steps
(`cas-math/src/algebra/simplify/step.rs`, the `Step` enum, verbatim). -/
inductive Step where
  | AddZero
  | MultiplyZero
  | MultiplyOne
  | ReduceFraction
  | CombineLikeFactors
  | PowerZero
  | PowerZeroLeft
  | PowerOneLeft
  | PowerOne
  | PowerPower
  | DistributiveProperty
  | DistributePower
  deriving DecidableEq, Repr

/-- The twelve `Step` values, in declaration order. -/
def allSteps : List Step :=
  [.AddZero, .MultiplyZero, .MultiplyOne, .ReduceFraction, .CombineLikeFactors,
   .PowerZero, .PowerZeroLeft, .PowerOneLeft, .PowerOne, .PowerPower,
   .DistributiveProperty, .DistributePower]

mutual

/-- The complexity function as claim C8 words it: a recursive sum in which a
`Number n` contributes the absolute value of `n` TRUNCATED to a non-negative
integer (`n.num.natAbs / n.den` is exactly `⌊|n|⌋` as a natural number).
This is the claim's reading of the heuristic, written independently of
`default_complexity` so the two can be compared. -/
def complexityTruncClaim : Expr → ℕ
  | .Primary (.Number n) => n.num.natAbs / n.den
  | .Primary (.Symbol s) => s.length
  | .Primary (.Call name args) => name.length + args.length + complexityTruncClaimList args
  | .Add ts => 3 + ts.length + complexityTruncClaimList ts
  | .Mul fs => 2 + fs.length + complexityTruncClaimList fs
  | .Exp l r => 1 + complexityTruncClaim l + complexityTruncClaim r

/-- Sum of `complexityTruncClaim` over an `ExprList`. -/
def complexityTruncClaimList : ExprList → ℕ
  | .nil => 0
  | .cons e es => complexityTruncClaim e + complexityTruncClaimList es

end

mutual

/-- The amended recursive reading of the heuristic: a `Number n` contributes
the absolute value of `n` ROUNDED to the nearest integer (as the source's
`to_integer` call does), `none` when the conversion to `usize` would panic;
other nodes contribute as the claim states. -/
def complexityRound : Expr → Option ℕ
  | .Primary (.Number n) => (floatToInteger (qAbs n)).bind integerToUsize
  | .Primary (.Symbol s) => some s.length
  | .Primary (.Call name args) =>
    addO (complexityRoundList args) (some (name.length + args.length))
  | .Add ts => addO (complexityRoundList ts) (some (3 + ts.length))
  | .Mul fs => addO (complexityRoundList fs) (some (2 + fs.length))
  | .Exp l r => addO (addO (complexityRound l) (complexityRound r)) (some 1)

/-- Sum of `complexityRound` over an `ExprList`. -/
def complexityRoundList : ExprList → Option ℕ
  | .nil => some 0
  | .cons e es => addO (complexityRound e) (complexityRoundList es)

end

theorem addO_assoc (a b c : Option ℕ) :
    addO (addO a b) c = addO a (addO b c) := by
  cases a <;> cases b <;> cases c <;> simp [addO, Nat.add_assoc]

theorem addO_some_zero (a : Option ℕ) : addO a (some 0) = a := by
  cases a <;> simp [addO]

theorem optSum_append (a b : List (Option ℕ)) :
    optSum (a ++ b) = addO (optSum a) (optSum b) := by
  induction a with
  | nil =>
    cases h : optSum b <;> simp [optSum, addO, h]
  | cons o os ih =>
    show addO o (optSum (os ++ b)) = addO (addO o (optSum os)) (optSum b)
    rw [ih, addO_assoc]

mutual

theorem default_complexity_eq_round (e : Expr) :
    default_complexity e = complexityRound e := by
  cases e with
  | Primary p =>
    cases p with
    | Number n =>
      simp [default_complexity, postOrder, optSum, nodeCost, complexityRound,
        addO_some_zero]
    | Symbol s =>
      simp [default_complexity, postOrder, optSum, nodeCost, complexityRound,
        addO_some_zero]
    | Call name args =>
      have h := default_complexity_eq_round_list args
      simp only [default_complexity, postOrder, List.map_append, optSum_append] at h ⊢
      rw [h]
      simp [optSum, nodeCost, complexityRound, addO, addO_some_zero]
  | Add ts =>
    have h := default_complexity_eq_round_list ts
    simp only [default_complexity, postOrder, List.map_append, optSum_append] at h ⊢
    rw [h]
    simp [optSum, nodeCost, complexityRound, addO, addO_some_zero]
  | Mul fs =>
    have h := default_complexity_eq_round_list fs
    simp only [default_complexity, postOrder, List.map_append, optSum_append] at h ⊢
    rw [h]
    simp [optSum, nodeCost, complexityRound, addO, addO_some_zero]
  | Exp l r =>
    have hl := default_complexity_eq_round l
    have hr := default_complexity_eq_round r
    simp only [default_complexity, postOrder, List.map_append, optSum_append] at hl hr ⊢
    rw [hl, hr]
    simp [optSum, nodeCost, complexityRound, addO, addO_some_zero]

theorem default_complexity_eq_round_list (l : ExprList) :
    optSum ((postOrderList l).map nodeCost) = complexityRoundList l := by
  cases l with
  | nil => simp [postOrderList, optSum, complexityRoundList]
  | cons e es =>
    have he := default_complexity_eq_round e
    have hes := default_complexity_eq_round_list es
    simp only [default_complexity] at he
    simp only [postOrderList, List.map_append, optSum_append, he, hes,
      complexityRoundList]

end

mutual

/-- `true` when every `Number` in the expression, rounded as `to_integer`
rounds, fits in a 64-bit `usize` — that is, when no `unwrap` in
`default_complexity` panics. -/
def numbersFit : Expr → Bool
  | .Primary (.Number n) => decide (rndNearest (qAbs n) < 2 ^ 64)
  | .Primary (.Symbol _) => true
  | .Primary (.Call _ args) => numbersFitList args
  | .Add ts => numbersFitList ts
  | .Mul fs => numbersFitList fs
  | .Exp l r => numbersFit l && numbersFit r

/-- `numbersFit` over every expression of an `ExprList`. -/
def numbersFitList : ExprList → Bool
  | .nil => true
  | .cons e es => numbersFit e && numbersFitList es

end

theorem rndNearest_nonneg (q : ℚ) (h : 0 ≤ q.num) : 0 ≤ rndNearest q := by
  have hd : (0 : ℤ) < (q.den : ℤ) := by
    exact_mod_cast Nat.pos_of_ne_zero q.den_nz
  have hf : 0 ≤ q.num.fdiv q.den := Int.fdiv_nonneg h (le_of_lt hd)
  unfold rndNearest
  dsimp only
  split_ifs <;> omega

theorem addO_isSome (a b : Option ℕ) :
    (addO a b).isSome = (a.isSome && b.isSome) := by
  cases a <;> cases b <;> simp [addO]

mutual

theorem complexityRound_isSome (e : Expr) (h : numbersFit e = true) :
    (complexityRound e).isSome = true := by
  cases e with
  | Primary p =>
    cases p with
    | Number n =>
      have hn : rndNearest (qAbs n) < 2 ^ 64 := by
        have := h
        simp [numbersFit] at this
        exact this
      have h0 : 0 ≤ rndNearest (qAbs n) := by
        refine rndNearest_nonneg _ ?_
        show 0 ≤ |n.num|
        exact abs_nonneg n.num
      rw [show ((2 : ℤ) ^ 64) = 18446744073709551616 by norm_num] at hn
      simp [complexityRound, floatToInteger, integerToUsize, h0, hn]
    | Symbol s => simp [complexityRound]
    | Call name args =>
      have := complexityRoundList_isSome args (by simpa [numbersFit] using h)
      simp [complexityRound, addO_isSome, this]
  | Add ts =>
    have := complexityRoundList_isSome ts (by simpa [numbersFit] using h)
    simp [complexityRound, addO_isSome, this]
  | Mul fs =>
    have := complexityRoundList_isSome fs (by simpa [numbersFit] using h)
    simp [complexityRound, addO_isSome, this]
  | Exp l r =>
    have hl : numbersFit l = true := by
      have := h; simp [numbersFit] at this; exact this.1
    have hr : numbersFit r = true := by
      have := h; simp [numbersFit] at this; exact this.2
    simp [complexityRound, addO_isSome, complexityRound_isSome l hl,
      complexityRound_isSome r hr]

theorem complexityRoundList_isSome (l : ExprList)
    (h : numbersFitList l = true) : (complexityRoundList l).isSome = true := by
  cases l with
  | nil => simp [complexityRoundList]
  | cons e es =>
    have h1 : numbersFit e = true := by
      have := h; simp [numbersFitList] at this; exact this.1
    have h2 : numbersFitList es = true := by
      have := h; simp [numbersFitList] at this; exact this.2
    simp [complexityRoundList, addO_isSome, complexityRound_isSome e h1,
      complexityRoundList_isSome es h2]

end

/-- C8: the claim reads the `Number` contribution as TRUNCATION of `|n|`; the
source rounds to the nearest integer (`to_integer`), and the two differ at
the dyadic number `15/4 = 3.75`: the code computes `4`, the claim computes
`3`.  This closed theorem refutes the claim as stated at that input. -/
theorem C8_counterexample :
    default_complexity (num (Rat.normalize 15 4 (by decide))) ≠
      some (complexityTruncClaim (num (Rat.normalize 15 4 (by decide)))) := by
  decide

/-- C8 (amended): `default_complexity` equals the post-order recursive sum in
which a `Number n` contributes `|n|` ROUNDED to the nearest integer (and is
undefined — a panic — exactly when that rounded value does not fit in
`usize`); symbols, calls, `Add`, `Mul` and `Exp` contribute as the claim
states. -/
theorem C8_amended (e : Expr) : default_complexity e = complexityRound e :=
  default_complexity_eq_round e

/-- C9: the public `Step` enumeration consists of exactly the twelve listed
values, with no others. -/
theorem C9_steps :
    (∀ s : Step, s ∈ allSteps) ∧ allSteps.Nodup ∧ allSteps.length = 12 := by
  refine ⟨fun s => ?_, by decide, rfl⟩
  cases s <;> simp [allSteps]

/-- C10: `default_complexity` is not total: at `Number (2^64)` the
`to_usize().unwrap()` conversion fails (the rounded absolute value does not
fit in a machine-sized unsigned integer), i.e. the code panics.  This closed
theorem refutes the claim's totality statement at that input. -/
theorem C10_counterexample :
    default_complexity (num ((2 : ℚ) ^ 64)) = none := by
  decide

/-- C10 (amended): `default_complexity` returns a value (does not panic)
exactly on the expressions all of whose numbers, rounded to the nearest
integer in absolute value, fit in a 64-bit `usize`; the infinite and NaN
cases of the claim are outside this model of finite numbers, and fail the
same `unwrap`s in the source. -/
theorem C10_amended (e : Expr) (h : numbersFit e = true) :
    ∃ c, default_complexity e = some c := by
  rw [default_complexity_eq_round e]
  have := complexityRound_isSome e h
  exact Option.isSome_iff_exists.mp this

/-- Witness for C10 (amended) at the concrete expression `Number 3`. -/
theorem C10_amended_witness :
    numbersFit (num 3) = true ∧
      ∃ c, default_complexity (num 3) = some c :=
  ⟨by decide, C10_amended (num 3) (by decide)⟩

/-!
## The parser side

Spans, tokens, the AST expression type, `Paren::std_parse`
(`cas-parser/src/parser/paren.rs`) and `AssignTarget::try_from_with_op`
(`cas-parser/src/parser/assign.rs`).

The parser kernel (`Parser`, `try_parse`, the tokenizer) and the AST `Expr`
parser are not among the provided sources; `Paren::std_parse` is therefore
embedded as a function over a token cursor (modelled as the list of remaining
tokens — `try_parse` restores the cursor on failure, which corresponds to
returning the untouched list) that is parameterised by the inner-expression
parser.  The body of the function is a line-by-line translation of
`paren.rs`.
-/

/-- A half-open byte range `[start, stop)` over the source text
(`Range<usize>`; the source's `end` field is called `stop` here because `end`
is a Lean keyword). -/
structure Span where
  start : ℕ
  stop : ℕ
  deriving DecidableEq, Repr

/-- Set inclusion of half-open spans, the reading of `parent.span ⊇
child.span`: every byte offset of the child range lies in the parent range.
An empty child range is included in anything. -/
def spanIncludes (parent child : Span) : Bool :=
  (child.stop ≤ child.start) ||
    (parent.start ≤ child.start && child.stop ≤ parent.stop)

/-- A symbol literal (`LitSym`): an identifier together with its span. -/
structure LitSym where
  name : String
  span : Span
  deriving DecidableEq, Repr

/-- Modelled from the spec: AST literals — number, symbol, unit (the spec's
data model; `literal.rs` is not among the provided sources). -/
inductive Lit where
  | Number (value : ℚ) (span : Span)
  | Symbol (s : LitSym)
  | Unit (span : Span)

/-- Modelled from the spec: the parser's AST expression type.  `Literal`,
`Paren` and `Call` are the shapes the claims inspect (their fields are fixed
by `paren.rs`, `call.rs` and `assign.rs`, which are in src/); `Binary` and
`Unary` stand for the remaining conventional variants of the grammar, which
`try_from_with_op` treats uniformly as "anything else". -/
inductive AstExpr where
  | Literal (l : Lit)
  | Paren (inner : AstExpr) (span : Span)
  | Call (name : LitSym) (args : List AstExpr) (span : Span) (parenSpan : Span)
  | Binary (op : String) (opSpan : Span) (lhs rhs : AstExpr) (span : Span)
  | Unary (op : String) (opSpan : Span) (operand : AstExpr) (span : Span)

/-- The span of an AST expression (each node's `span()` method). -/
def astSpan : AstExpr → Span
  | .Literal (.Number _ s) => s
  | .Literal (.Symbol ls) => ls.span
  | .Literal (.Unit s) => s
  | .Paren _ s => s
  | .Call _ _ s _ => s
  | .Binary _ _ _ _ s => s
  | .Unary _ _ _ s => s

/-- Error kinds relevant to the claims (`cas-parser`'s `error::kind`). -/
inductive ErrKind where
  | EmptyParenthesis
  | UnclosedParenthesis (opening : Bool)
  | InvalidAssignmentLhs (is_call : Bool)
  | ExpectedToken
  deriving DecidableEq, Repr

/-- A parse error: one or more spans plus a kind (`Error::new`). -/
structure PError where
  spans : List Span
  kind : ErrKind
  deriving DecidableEq, Repr

/-- Token kinds, reduced to what `Paren::std_parse` inspects. -/
inductive TokenKind where
  | openParen
  | closeParen
  | other
  deriving DecidableEq, Repr

/-- A token: kind plus span. -/
structure Token where
  kind : TokenKind
  span : Span
  deriving DecidableEq, Repr

/-- `input.try_parse::<OpenParen>()`: consume an opening-parenthesis token,
or fail leaving the cursor untouched (backtracking). -/
def tryParseOpen : List Token → Option (Span × List Token)
  | t :: rest =>
    match t.kind with
    | .openParen => some (t.span, rest)
    | _ => none
  | [] => none

/-- `input.try_parse::<CloseParen>()`: consume a closing-parenthesis token,
or fail leaving the cursor untouched (backtracking). -/
def tryParseClose : List Token → Option (Span × List Token)
  | t :: rest =>
    match t.kind with
    | .closeParen => some (t.span, rest)
    | _ => none
  | [] => none

/-- Outcome of a sub-parser after `forward_errors`: success carries the value,
the rest of the tokens, and the recoverable errors to forward into the
caller's accumulator; failure carries the fatal error set (nothing is pushed
to the accumulator in that case — `try_parse` restores the cursor). -/
inductive PRes (α : Type) where
  | ok (val : α) (rest : List Token) (errs : List PError)
  | fatal (errs : List PError)

/-- A parenthesized expression (`Paren` in `paren.rs`): the inner expression
and the node's span. -/
structure Paren where
  expr : AstExpr
  span : Span

/-- `Paren::std_parse` (`cas-parser/src/parser/paren.rs`, lines 28-78),
parameterised by the inner-expression parser `P` (the `Expr` parser is not
among the provided sources).  Branches:

* open parenthesis missing: the error set is returned (`?`);
* inner parse failed but a close parenthesis follows: push
  `EmptyParenthesis` and return a fake empty-symbol expression spanning
  `open.start..close.end`;
* inner parse failed, no close parenthesis: return the inner parse's errors;
* inner parse succeeded but the close parenthesis is missing: push
  `UnclosedParenthesis{opening: true}` and fake a close parenthesis with
  span `0..0`, so the node's span becomes `open.start..0`;
* both present: span `open.start..close.end`. -/
def parenStdParse (P : List Token → PRes AstExpr) (input : List Token) :
    PRes Paren :=
  match tryParseOpen input with
  | none => .fatal [⟨[], .ExpectedToken⟩]
  | some (openSpan, st1) =>
    match P st1 with
    | .ok e st2 errs =>
      match tryParseClose st2 with
      | some (closeSpan, st3) =>
        .ok ⟨e, ⟨openSpan.start, closeSpan.stop⟩⟩ st3 errs
      | none =>
        .ok ⟨e, ⟨openSpan.start, 0⟩⟩ st2
          (errs ++ [⟨[openSpan], .UnclosedParenthesis true⟩])
    | .fatal perrs =>
      match tryParseClose st1 with
      | some (closeSpan, st2) =>
        .ok ⟨.Literal (.Symbol ⟨"", ⟨0, 0⟩⟩), ⟨openSpan.start, closeSpan.stop⟩⟩
          st2 [⟨[⟨openSpan.start, closeSpan.stop⟩], .EmptyParenthesis⟩]
      | none => .fatal perrs

/-- A function-declaration parameter (`Param` in `assign.rs`). -/
inductive Param where
  | Symbol (s : LitSym)
  | Default (s : LitSym) (value : AstExpr)

/-- A function header (`FuncHeader` in `assign.rs`). -/
structure FuncHeader where
  name : LitSym
  params : List Param
  span : Span

/-- An assignment target (`AssignTarget` in `assign.rs`). -/
inductive AssignTarget where
  | Symbol (s : LitSym)
  | Func (f : FuncHeader)

/-- `ParseResult` (`cas-parser`): success, success with recoverable errors,
or failure. -/
inductive ParseResult (α : Type) where
  | Ok (v : α)
  | Recoverable (v : α) (errs : List PError)
  | Unrecoverable (errs : List PError)

/-- `AssignTarget::try_from_with_op` (`cas-parser/src/parser/assign.rs`,
lines 112-136), verbatim: a bare symbol literal becomes an `Ok` symbol
target; a call becomes a recoverable `InvalidAssignmentLhs{is_call: true}`
whose recovery value is a symbol target named after the call; anything else
becomes a recoverable `InvalidAssignmentLhs{is_call: false}` whose recovery
value is an empty-named symbol target spanning the expression. -/
def AssignTarget.try_from_with_op (e : AstExpr) (op : Span) :
    ParseResult AssignTarget :=
  match e with
  | .Literal (.Symbol s) => .Ok (.Symbol s)
  | .Call name _args span _pspan =>
    .Recoverable (.Symbol name) [⟨[span, op], .InvalidAssignmentLhs true⟩]
  | e => .Recoverable (.Symbol ⟨"", astSpan e⟩)
      [⟨[astSpan e, op], .InvalidAssignmentLhs false⟩]

/-- `true` exactly on a bare symbol literal. -/
def isSymbolLit : AstExpr → Bool
  | .Literal (.Symbol _) => true
  | _ => false

/-- `true` exactly on a call expression. -/
def isCallExpr : AstExpr → Bool
  | .Call _ _ _ _ => true
  | _ => false

/-!
## The simplifier

The driver `inner_simplify_with` is translated line by line from
`cas-math/src/algebra/simplify/mod.rs` (lines 50-114); since the source's
outer `loop` has no syntactic bound, the embedding is fuel-indexed, with
`none` meaning "the loop has not finished within `fuel` iterations".  The
source also computes `complexity(&expr)` once per pass and never reads the
value (`// TODO: use complexity` in the source); that dead computation is
omitted here (none of the claims concerns a panic raised by it).

The rewrite rules (`rules::all` and the rule modules) are not among the
provided sources.  Every definition below whose doc comment starts with
`Modelled from the spec:` is reconstructed from the specification's section
4.4 rule catalogue and section 3 invariants, faithful to their words; the
call site in `mod.rs` fixes the interface (`rules::all` receives only the
expression and the step collector, so the distribution gate can only use the
default heuristic).
-/

/-- Modelled from the spec: the terms of an expression viewed as a sum — the
term list of an `Add`, otherwise the expression itself (invariant 1: an `Add`
inside an `Add` is flattened by the `+=`/constructor canonicalization). -/
def addTerms : Expr → ExprList
  | .Add ts => ts
  | e => .cons e .nil

/-- Modelled from the spec: the factors of an expression viewed as a product
(invariant 1 for `Mul`). -/
def mulFactors : Expr → ExprList
  | .Mul fs => fs
  | e => .cons e .nil

/-- Modelled from the spec: invariant 2 — an `Add` with zero terms is the
number `0`, with one term the term itself. -/
def collapseAdd : ExprList → Expr
  | .nil => num 0
  | .cons t .nil => t
  | ts => .Add ts

/-- Modelled from the spec: invariant 2 — a `Mul` with zero factors is the
number `1`, with one factor the factor itself. -/
def collapseMul : ExprList → Expr
  | .nil => num 1
  | .cons f .nil => f
  | fs => .Mul fs

/-- Modelled from the spec: the product of two expressions, flattening nested
`Mul`s (invariant 1) and collapsing per invariant 2. -/
def mulCombine (a b : Expr) : Expr :=
  collapseMul (ExprList.append (mulFactors a) (mulFactors b))

/-- `true` on the number `0` (value comparison, as float equality). -/
def isZeroE : Expr → Bool
  | .Primary (.Number n) => n == 0
  | _ => false

/-- `true` on the number `1` (value comparison, as float equality). -/
def isOneE : Expr → Bool
  | .Primary (.Number n) => n == 1
  | _ => false

/-- Does some element of the list satisfy the test? -/
def containsWith (p : Expr → Bool) : ExprList → Bool
  | .nil => false
  | .cons e es => p e || containsWith p es

/-- Remove every element satisfying the test. -/
def removeAll (p : Expr → Bool) : ExprList → ExprList
  | .nil => .nil
  | .cons e es => if p e then removeAll p es else .cons e (removeAll p es)

/-- Modelled from the spec: rule `AddZero` — an `Add` containing a `0` term
drops the zero(s) and collapses per invariant 2. -/
def addZero : Expr → Option Expr
  | .Add ts =>
    if containsWith isZeroE ts then some (collapseAdd (removeAll isZeroE ts))
    else none
  | _ => none

/-- Modelled from the spec: rule `MultiplyZero` — a `Mul` containing a `0`
factor is `0`. -/
def multiplyZero : Expr → Option Expr
  | .Mul fs => if containsWith isZeroE fs then some (num 0) else none
  | _ => none

/-- Modelled from the spec: rule `MultiplyOne` — a `Mul` containing a `1`
factor drops the one(s) and collapses per invariant 2. -/
def multiplyOne : Expr → Option Expr
  | .Mul fs =>
    if containsWith isOneE fs then some (collapseMul (removeAll isOneE fs))
    else none
  | _ => none

/-- An integer numerator factor: a bare integer `Number`. -/
def intNumVal : Expr → Option ℚ
  | .Primary (.Number n) => if n.den == 1 then some n else none
  | _ => none

/-- An integer-reciprocal denominator factor: `Exp(Number d, Number (-1))`
with `d` an integer. -/
def intRecipVal : Expr → Option ℚ
  | .Exp (.Primary (.Number d)) (.Primary (.Number e)) =>
    if e == -1 && d.den == 1 then some d else none
  | _ => none

/-- First value extracted by `f` from the list, if any. -/
def findFirst (f : Expr → Option ℚ) : ExprList → Option ℚ
  | .nil => none
  | .cons x xs =>
    match f x with
    | some v => some v
    | none => findFirst f xs

/-- Replace the first element matched by `f` with `mk` of its value. -/
def replaceFirst (f : Expr → Option ℚ) (mk : ℚ → Expr) : ExprList → ExprList
  | .nil => .nil
  | .cons x xs =>
    match f x with
    | some v => .cons (mk v) xs
    | none => .cons x (replaceFirst f mk xs)

/-- Exact division of a model integer by a natural number (used only when the
divisor divides the numerator). -/
def qDivInt (q : ℚ) (g : ℕ) : ℚ := ((q.num / (g : ℤ) : ℤ) : ℚ)

/-- Modelled from the spec: rule `ReduceFraction` — a `Mul` with an integer
numerator factor and an integer-reciprocal denominator factor reduces both by
their gcd. -/
def reduceFraction : Expr → Option Expr
  | .Mul fs =>
    match findFirst intNumVal fs, findFirst intRecipVal fs with
    | some n, some d =>
      let g := Int.gcd n.num d.num
      if 1 < g then
        some (.Mul (replaceFirst intRecipVal
          (fun dv => .Exp (num (qDivInt dv g)) (num (-1)))
          (replaceFirst intNumVal (fun nv => num (qDivInt nv g)) fs)))
      else none
    | _, _ => none
  | _ => none

/-- Modelled from the spec: the base of a factor (`e^a` has base `e`; a bare
factor is its own base). -/
def baseOf : Expr → Expr
  | .Exp b _ => b
  | e => e

/-- Modelled from the spec: the exponent of a factor (implicit exponent `1`
for bare factors). -/
def expOf : Expr → Expr
  | .Exp _ e => e
  | _ => num 1

/-- Modelled from the spec: the sum of two exponents, simplified — numeric
exponents are folded exactly, otherwise the flattened sum (invariants 1-2). -/
def addExponents (a b : Expr) : Expr :=
  match a, b with
  | .Primary (.Number x), .Primary (.Number y) => num (qAdd x y)
  | _, _ => collapseAdd (ExprList.append (addTerms a) (addTerms b))

/-- Modelled from the spec: merge two like factors `e^a` and `e^b` into
`e^(a+b)`; if the resulting exponent is `0` the factor vanishes (becomes
`1`), if `1` the factor is the base alone. -/
def mergeLike (f g : Expr) : Expr :=
  let b := baseOf f
  let e := addExponents (expOf f) (expOf g)
  if isZeroE e then num 1
  else if isOneE e then b
  else .Exp b e

/-- Modelled from the spec: find and remove the first factor whose base
equals `b` (strict structural equality, as the source's grouping uses). -/
def extractLike (b : Expr) : ExprList → Option (Expr × ExprList)
  | .nil => none
  | .cons g gs =>
    if baseOf g = b then some (g, gs)
    else
      match extractLike b gs with
      | some (g2, rest) => some (g2, .cons g rest)
      | none => none

/-- Modelled from the spec: merge the first like pair of the factor list, if
any. -/
def combineInList : ExprList → Option ExprList
  | .nil => none
  | .cons f fs =>
    match extractLike (baseOf f) fs with
    | some (g, rest) => some (.cons (mergeLike f g) rest)
    | none =>
      match combineInList fs with
      | some fs2 => some (.cons f fs2)
      | none => none

/-- Modelled from the spec: rule `CombineLikeFactors` — a `Mul` with two
factors of equal base replaces them with the base raised to the sum of the
exponents (implicit exponent `1` for bare factors), collapsing per
invariant 2. -/
def combineLikeFactors : Expr → Option Expr
  | .Mul fs =>
    match combineInList fs with
    | some fs2 => some (collapseMul fs2)
    | none => none
  | _ => none

/-- Modelled from the spec: rule `PowerZero` — `Exp(_, 0)` is `1`. -/
def powerZero : Expr → Option Expr
  | .Exp _ (.Primary (.Number q)) => if q == 0 then some (num 1) else none
  | _ => none

/-- Modelled from the spec: rule `PowerOne` — `Exp(b, 1)` is `b`. -/
def powerOne : Expr → Option Expr
  | .Exp b (.Primary (.Number q)) => if q == 1 then some b else none
  | _ => none

/-- Modelled from the spec: rule `PowerZeroLeft` — `Exp(0, e)` with `e > 0`
(a positive numeric exponent) is `0`. -/
def powerZeroLeft : Expr → Option Expr
  | .Exp (.Primary (.Number z)) (.Primary (.Number q)) =>
    if z == 0 && 0 < q.num then some (num 0) else none
  | _ => none

/-- Modelled from the spec: rule `PowerOneLeft` — `Exp(1, _)` is `1`. -/
def powerOneLeft : Expr → Option Expr
  | .Exp (.Primary (.Number o)) _ => if o == 1 then some (num 1) else none
  | _ => none

/-- Modelled from the spec: rule `PowerPower` — `Exp(Exp(b, p), q)` is
`Exp(b, p*q)` (the product built with the canonicalizing constructor). -/
def powerPower : Expr → Option Expr
  | .Exp (.Exp b p) q => some (.Exp b (mulCombine p q))
  | _ => none

/-- Raise each factor of the list to the exponent `q`. -/
def mapExpOver (q : Expr) : ExprList → ExprList
  | .nil => .nil
  | .cons f rest => .cons (.Exp f q) (mapExpOver q rest)

/-- Modelled from the spec: rule `DistributePower` — `Exp(Mul(fs), q)` is
`Mul(fs.map(f → Exp(f, q)))`. -/
def distributePower : Expr → Option Expr
  | .Exp (.Mul fs) q => some (.Mul (mapExpOver q fs))
  | _ => none

/-- Modelled from the spec: find and remove the first `Add` factor (one
application per pass), returning its terms and the remaining factors in
order. -/
def extractFirstAdd : ExprList → Option (ExprList × ExprList)
  | .nil => none
  | .cons f fs =>
    match f with
    | .Add ts => some (ts, fs)
    | _ =>
      match extractFirstAdd fs with
      | some (ts, rest) => some (ts, .cons f rest)
      | none => none

/-- Modelled from the spec: multiply each term of the list by `r` (term
first, as the source's own `distribute` test shows), with the canonicalizing
product constructor. -/
def mapMulOver (r : Expr) : ExprList → ExprList
  | .nil => .nil
  | .cons t rest => .cons (mulCombine t r) (mapMulOver r rest)

/-- Modelled from the spec: rule `DistributiveProperty` — a `Mul` containing
an `Add` factor multiplies the add's terms by the product of the remaining
factors (one application per pass: the first `Add` factor), GATED so that it
fires only when the result's complexity under the default heuristic is
strictly less than the original's (`rules::all` receives no heuristic
argument, so the gate is on the default heuristic).  If the heuristic panics
(`none`) the source would panic; that corner is modelled as the rule not
firing and is exercised by no claim. -/
def distributiveProperty : Expr → Option Expr
  | .Mul fs =>
    match extractFirstAdd fs with
    | none => none
    | some (ts, rest) =>
      let d := Expr.Add (mapMulOver (collapseMul rest) ts)
      match default_complexity d, default_complexity (Expr.Mul fs) with
      | some a, some b => if a < b then some d else none
      | _, _ => none
  | _ => none

/-- Modelled from the spec: `rules::all` — try every rule at the current node
in the fixed catalogue order, returning the rewritten expression together
with the `Step` recorded in the collector by the successful rule. -/
def rulesAll (e : Expr) : Option (Expr × Step) :=
  match addZero e with
  | some x => some (x, .AddZero)
  | none =>
  match multiplyZero e with
  | some x => some (x, .MultiplyZero)
  | none =>
  match multiplyOne e with
  | some x => some (x, .MultiplyOne)
  | none =>
  match combineLikeFactors e with
  | some x => some (x, .CombineLikeFactors)
  | none =>
  match reduceFraction e with
  | some x => some (x, .ReduceFraction)
  | none =>
  match powerZero e with
  | some x => some (x, .PowerZero)
  | none =>
  match powerOne e with
  | some x => some (x, .PowerOne)
  | none =>
  match powerZeroLeft e with
  | some x => some (x, .PowerZeroLeft)
  | none =>
  match powerOneLeft e with
  | some x => some (x, .PowerOneLeft)
  | none =>
  match powerPower e with
  | some x => some (x, .PowerPower)
  | none =>
  match distributePower e with
  | some x => some (x, .DistributePower)
  | none =>
  match distributiveProperty e with
  | some x => some (x, .DistributiveProperty)
  | none => none

/-- Simplify every child of a list with the given child simplifier,
collecting the rewritten children, whether any child changed, and the steps
(the body of the `for` loops in the `Add`/`Mul` branches of
`inner_simplify_with`). -/
def innerFold (g : Expr → Option (Expr × Bool × List Step)) :
    ExprList → Option (ExprList × Bool × List Step)
  | .nil => some (.nil, false, [])
  | .cons e es =>
    match g e with
    | none => none
    | some (e2, b1, s1) =>
      match innerFold g es with
      | none => none
      | some (es2, b2, s2) => some (.cons e2 es2, b1 || b2, s1 ++ s2)

/-- Modelled from the spec: splice each child's terms (`output += child`,
`AddAssign` flattening per invariant 1 — an `Add` child's terms are spliced
into the output's term list). -/
def spliceAdd : ExprList → ExprList
  | .nil => .nil
  | .cons e es => ExprList.append (addTerms e) (spliceAdd es)

/-- The `Add` branch rebuild of `inner_simplify_with`: start from
`Expr::Add(Vec::new())` and `+=` every simplified term. -/
def rebuildAdd (ts : ExprList) : Expr := .Add (spliceAdd ts)

/-- The simplification driver `inner_simplify_with`
(`cas-math/src/algebra/simplify/mod.rs`, lines 50-114), fuel-indexed.
Per iteration of the source's `loop`: try `rules::all` at the current node —
on success replace the node, record the step, and restart (recursion on the
new node, which is the same loop state); otherwise recurse into the
children (`Primary` returns at once; `Add` rebuilds through `+=`; `Mul`
mutates its factors in place; `Exp` reboxes both sides), and loop again only
if some child changed in this pass.  The result is the final expression,
the `changed_at_least_once` flag, and the steps pushed to the collector in
order. -/
def inner_simplify_with : ℕ → Expr → Option (Expr × Bool × List Step)
  | 0, _ => none
  | fuel + 1, e =>
    match rulesAll e with
    | some (e2, st) =>
      match inner_simplify_with fuel e2 with
      | none => none
      | some (v, _, sts) => some (v, true, st :: sts)
    | none =>
      match e with
      | .Primary p => some (.Primary p, false, [])
      | .Add ts =>
        match innerFold (inner_simplify_with fuel) ts with
        | none => none
        | some (ts2, ch, sts) =>
          if ch then
            match inner_simplify_with fuel (rebuildAdd ts2) with
            | none => none
            | some (v, _, sts2) => some (v, true, sts ++ sts2)
          else some (rebuildAdd ts2, false, sts)
      | .Mul fs =>
        match innerFold (inner_simplify_with fuel) fs with
        | none => none
        | some (fs2, ch, sts) =>
          if ch then
            match inner_simplify_with fuel (.Mul fs2) with
            | none => none
            | some (v, _, sts2) => some (v, true, sts ++ sts2)
          else some (.Mul fs2, false, sts)
      | .Exp l r =>
        match inner_simplify_with fuel l with
        | none => none
        | some (l2, bl, sl) =>
          match inner_simplify_with fuel r with
          | none => none
          | some (r2, br, sr) =>
            if bl || br then
              match inner_simplify_with fuel (.Exp l2 r2) with
              | none => none
              | some (v, _, sts2) => some (v, true, sl ++ sr ++ sts2)
            else some (.Exp l2 r2, false, sl ++ sr)

/-- `simplify e` terminates with value `v`: for some fuel the driver's loop
finishes, yielding `v` (`simplify` in `mod.rs` is
`inner_simplify_with(expr, default_complexity, &mut ()).0`). -/
def SimplifyTo (e v : Expr) : Prop :=
  ∃ fuel b steps, inner_simplify_with fuel e = some (v, b, steps)

/-- `simplify_with_steps e` terminates with value `v` and step trace
`steps` (`simplify_with_steps` in `mod.rs`). -/
def SimplifyStepsTo (e v : Expr) (steps : List Step) : Prop :=
  ∃ fuel b, inner_simplify_with fuel e = some (v, b, steps)

/-- Modelled from the spec: the algebraic expression converted from the
parsed input `"(1^0)^(3x+5b^2i)^1^(3a)"` (the parser and the AST→algebraic
conversion are not among the provided sources).  Exponentiation is
right-associative (Pratt parsing recurses on the right), implicit
multiplication binds looser than `^`, and numeric coefficients become
number primaries, so the input reads
`Exp(Exp(1,0), Exp(3x+5b²i, Exp(1, 3a)))` with
`3x+5b²i = Add[Mul[3,x], Mul[5, Exp(b,2), i]]` and `3a = Mul[3,a]`.
(The source's own `power_rule_steps` test fixes the right associativity:
a left-associative reading would record more than one `PowerPower` step.) -/
def powerStepsInput : Expr :=
  .Exp (.Exp (num 1) (num 0))
    (.Exp (.Add (el [.Mul (el [num 3, sym "x"]),
        .Mul (el [num 5, .Exp (sym "b") (num 2), sym "i"])]))
      (.Exp (num 1) (.Mul (el [num 3, sym "a"]))))

/-- The algebraic expression of the input `"(x^a)^b"`: a power of a power
with symbolic exponents. -/
def nestedExpInput : Expr := .Exp (.Exp (sym "x") (sym "a")) (sym "b")

/-- What the simplifier produces from `nestedExpInput`: `x^(a*b)`
(the `PowerPower` rule). -/
def nestedExpResult : Expr := .Exp (sym "x") (.Mul (el [sym "a", sym "b"]))

/-- The expression `s * (a*b + (c*d))` written with an `Add` directly inside
an `Add` — a tree that violates the spec's invariant 1 but is a value of the
source's public `Expr` type. -/
def nestedAddInput : Expr :=
  .Mul (el [sym "s",
    .Add (el [.Mul (el [sym "a", sym "b"]),
      .Add (el [.Mul (el [sym "c", sym "d"])])])])

/-- `simplify nestedAddInput`: the driver's `Add` rebuild splices the nested
`Add` (invariant 1) without setting the changed flag, and the distribution
gate blocks on the original tree, so the loop stops here. -/
def nestedAddOnce : Expr :=
  .Mul (el [sym "s",
    .Add (el [.Mul (el [sym "a", sym "b"]), .Mul (el [sym "c", sym "d"])])])

/-- `simplify nestedAddOnce`: on the flattened tree the distribution gate
passes (complexity 21 < 22), so the product distributes. -/
def nestedAddTwice : Expr :=
  .Add (el [.Mul (el [sym "a", sym "b", sym "s"]),
    .Mul (el [sym "c", sym "d", sym "s"])])

/-- `true` on `Add` nodes. -/
def isAddE : Expr → Bool
  | .Add _ => true
  | _ => false

/-- No element of the list is an `Add` node. -/
def allNotAdd : ExprList → Bool
  | .nil => true
  | .cons e es => !isAddE e && allNotAdd es

mutual

/-- The spec's structural invariants 1-2 as a predicate on trees: no `Add`
directly inside an `Add` (nested sums are flattened), and every `Mul` node
has at least two factors (zero- and one-factor products are collapsed).
Every tree the AST→algebraic converter produces satisfies this "maintained
by construction" shape. -/
def flatForm : Expr → Bool
  | .Primary (.Call _ args) => flatFormList args
  | .Primary _ => true
  | .Add ts => allNotAdd ts && flatFormList ts
  | .Mul fs => 2 ≤ fs.length && flatFormList fs
  | .Exp l r => flatForm l && flatForm r

/-- `flatForm` for every element of a list. -/
def flatFormList : ExprList → Bool
  | .nil => true
  | .cons e es => flatForm e && flatFormList es

end

theorem flatFormList_append : ∀ a b : ExprList,
    flatFormList (ExprList.append a b) = (flatFormList a && flatFormList b)
  | .nil, b => by simp [ExprList.append, flatFormList]
  | .cons e es, b => by
    simp [ExprList.append, flatFormList, flatFormList_append es b,
      Bool.and_assoc]

theorem allNotAdd_append : ∀ a b : ExprList,
    allNotAdd (ExprList.append a b) = (allNotAdd a && allNotAdd b)
  | .nil, b => by simp [ExprList.append, allNotAdd]
  | .cons e es, b => by
    simp [ExprList.append, allNotAdd, allNotAdd_append es b, Bool.and_assoc]

theorem length_append : ∀ a b : ExprList,
    (ExprList.append a b).length = a.length + b.length
  | .nil, b => by simp [ExprList.append, ExprList.length]
  | .cons e es, b => by
    simp [ExprList.append, ExprList.length, length_append es b]; omega

theorem removeAll_flat (p : Expr → Bool) : ∀ ts : ExprList,
    flatFormList ts = true → flatFormList (removeAll p ts) = true
  | .nil, _ => by simp [removeAll, flatFormList]
  | .cons e es, h => by
    simp only [flatFormList, Bool.and_eq_true] at h
    by_cases hp : p e = true
    · simp [removeAll, hp, removeAll_flat p es h.2]
    · simp only [removeAll, hp]
      simp [flatFormList, h.1, removeAll_flat p es h.2]

theorem removeAll_notAdd (p : Expr → Bool) : ∀ ts : ExprList,
    allNotAdd ts = true → allNotAdd (removeAll p ts) = true
  | .nil, _ => by simp [removeAll, allNotAdd]
  | .cons e es, h => by
    simp only [allNotAdd, Bool.and_eq_true] at h
    by_cases hp : p e = true
    · simp [removeAll, hp, removeAll_notAdd p es h.2]
    · simp only [removeAll, hp]
      simp [allNotAdd, h.1, removeAll_notAdd p es h.2]

theorem collapseAdd_flat (ts : ExprList) (hn : allNotAdd ts = true)
    (hf : flatFormList ts = true) : flatForm (collapseAdd ts) = true := by
  cases ts with
  | nil => simp [collapseAdd, flatForm, num]
  | cons t rest =>
    cases rest with
    | nil =>
      simp only [flatFormList, Bool.and_eq_true] at hf
      simpa [collapseAdd] using hf.1
    | cons u rest2 =>
      simp [collapseAdd, flatForm, hn, hf]

theorem collapseMul_flat (fs : ExprList) (hf : flatFormList fs = true) :
    flatForm (collapseMul fs) = true := by
  cases fs with
  | nil => simp [collapseMul, flatForm, num]
  | cons f rest =>
    cases rest with
    | nil =>
      simp only [flatFormList, Bool.and_eq_true] at hf
      simpa [collapseMul] using hf.1
    | cons g rest2 =>
      simp [collapseMul, flatForm, hf, ExprList.length]
      omega

theorem mulFactors_flat (a : Expr) (h : flatForm a = true) :
    flatFormList (mulFactors a) = true := by
  cases a with
  | Mul fs =>
    simp only [flatForm, Bool.and_eq_true] at h
    simpa [mulFactors] using h.2
  | Primary p => simpa [mulFactors, flatFormList] using h
  | Add ts => simpa [mulFactors, flatFormList] using h
  | Exp l r => simpa [mulFactors, flatFormList] using h

theorem mulFactors_len_pos (a : Expr) (h : flatForm a = true) :
    1 ≤ (mulFactors a).length := by
  cases a with
  | Mul fs =>
    simp only [flatForm, Bool.and_eq_true, decide_eq_true_eq] at h
    simp only [mulFactors]
    omega
  | Primary p => simp [mulFactors, ExprList.length]
  | Add ts => simp [mulFactors, ExprList.length]
  | Exp l r => simp [mulFactors, ExprList.length]

theorem mulCombine_flat (a b : Expr) (ha : flatForm a = true)
    (hb : flatForm b = true) : flatForm (mulCombine a b) = true := by
  unfold mulCombine
  have hfa := mulFactors_flat a ha
  have hfb := mulFactors_flat b hb
  have hla := mulFactors_len_pos a ha
  have hlb := mulFactors_len_pos b hb
  have hlen := length_append (mulFactors a) (mulFactors b)
  cases hc : ExprList.append (mulFactors a) (mulFactors b) with
  | nil => simp [collapseMul, flatForm, num]
  | cons f rest =>
    cases rest with
    | nil =>
      rw [hc] at hlen
      simp [ExprList.length] at hlen
      omega
    | cons g rest2 =>
      have : flatFormList (ExprList.append (mulFactors a) (mulFactors b)) = true := by
        rw [flatFormList_append]
        simp [hfa, hfb]
      rw [hc] at this
      simp [collapseMul, flatForm, this, ExprList.length]
      omega

theorem mulCombine_notAdd (a b : Expr) (ha : flatForm a = true)
    (hb : flatForm b = true) : isAddE (mulCombine a b) = false := by
  unfold mulCombine
  have hla := mulFactors_len_pos a ha
  have hlb := mulFactors_len_pos b hb
  have hlen := length_append (mulFactors a) (mulFactors b)
  cases hc : ExprList.append (mulFactors a) (mulFactors b) with
  | nil => simp [collapseMul, isAddE, num]
  | cons f rest =>
    cases rest with
    | nil =>
      rw [hc] at hlen
      simp [ExprList.length] at hlen
      omega
    | cons g rest2 => simp [collapseMul, isAddE]

theorem addTerms_notAdd (a : Expr) (h : flatForm a = true) :
    allNotAdd (addTerms a) = true := by
  cases a with
  | Add ts =>
    simp only [flatForm, Bool.and_eq_true] at h
    simpa [addTerms] using h.1
  | Primary p => simp [addTerms, allNotAdd, isAddE]
  | Mul fs => simp [addTerms, allNotAdd, isAddE]
  | Exp l r => simp [addTerms, allNotAdd, isAddE]

theorem addTerms_flat (a : Expr) (h : flatForm a = true) :
    flatFormList (addTerms a) = true := by
  cases a with
  | Add ts =>
    simp only [flatForm, Bool.and_eq_true] at h
    simpa [addTerms] using h.2
  | Primary p => simpa [addTerms, flatFormList] using h
  | Mul fs => simpa [addTerms, flatFormList] using h
  | Exp l r => simpa [addTerms, flatFormList] using h

theorem spliceAdd_notAdd : ∀ ts : ExprList,
    flatFormList ts = true → allNotAdd (spliceAdd ts) = true
  | .nil, _ => by simp [spliceAdd, allNotAdd]
  | .cons e es, h => by
    simp only [flatFormList, Bool.and_eq_true] at h
    simp [spliceAdd, allNotAdd_append, addTerms_notAdd e h.1,
      spliceAdd_notAdd es h.2]

theorem spliceAdd_flat : ∀ ts : ExprList,
    flatFormList ts = true → flatFormList (spliceAdd ts) = true
  | .nil, _ => by simp [spliceAdd, flatFormList]
  | .cons e es, h => by
    simp only [flatFormList, Bool.and_eq_true] at h
    simp [spliceAdd, flatFormList_append, addTerms_flat e h.1,
      spliceAdd_flat es h.2]

theorem rebuildAdd_flat (ts : ExprList) (h : flatFormList ts = true) :
    flatForm (rebuildAdd ts) = true := by
  simp [rebuildAdd, flatForm, spliceAdd_notAdd ts h, spliceAdd_flat ts h]

theorem spliceAdd_id : ∀ ts : ExprList, allNotAdd ts = true → spliceAdd ts = ts
  | .nil, _ => by simp [spliceAdd]
  | .cons e es, h => by
    simp only [allNotAdd, Bool.and_eq_true] at h
    have he : addTerms e = .cons e .nil := by
      cases e with
      | Add ts2 => simp [isAddE] at h
      | Primary p => rfl
      | Mul fs => rfl
      | Exp l r => rfl
    simp [spliceAdd, he, spliceAdd_id es h.2, ExprList.append]

theorem baseOf_flat (f : Expr) (h : flatForm f = true) :
    flatForm (baseOf f) = true := by
  cases f with
  | Exp l r =>
    simp only [flatForm, Bool.and_eq_true] at h
    simpa [baseOf] using h.1
  | Primary p => simpa [baseOf] using h
  | Add ts => simpa [baseOf] using h
  | Mul fs => simpa [baseOf] using h

theorem expOf_flat (f : Expr) (h : flatForm f = true) :
    flatForm (expOf f) = true := by
  cases f with
  | Exp l r =>
    simp only [flatForm, Bool.and_eq_true] at h
    simpa [expOf] using h.2
  | Primary p => simp [expOf, num, flatForm]
  | Add ts => simp [expOf, num, flatForm]
  | Mul fs => simp [expOf, num, flatForm]

theorem addExponents_flat (a b : Expr) (ha : flatForm a = true)
    (hb : flatForm b = true) : flatForm (addExponents a b) = true := by
  unfold addExponents
  split
  · simp [num, flatForm]
  · exact collapseAdd_flat _
      (by simp [allNotAdd_append, addTerms_notAdd a ha, addTerms_notAdd b hb])
      (by simp [flatFormList_append, addTerms_flat a ha, addTerms_flat b hb])

theorem mergeLike_flat (f g : Expr) (hf : flatForm f = true)
    (hg : flatForm g = true) : flatForm (mergeLike f g) = true := by
  unfold mergeLike
  dsimp only
  split
  · simp [num, flatForm]
  · split
    · exact baseOf_flat f hf
    · simp only [flatForm, Bool.and_eq_true]
      exact ⟨baseOf_flat f hf,
        addExponents_flat _ _ (expOf_flat f hf) (expOf_flat g hg)⟩

theorem extractLike_flat (b : Expr) : ∀ fs g rest, flatFormList fs = true →
    extractLike b fs = some (g, rest) →
    flatForm g = true ∧ flatFormList rest = true
  | .nil, g, rest, _, h => by simp [extractLike] at h
  | .cons f fs, g, rest, hf, h => by
    simp only [flatFormList, Bool.and_eq_true] at hf
    simp only [extractLike] at h
    by_cases hb : baseOf f = b
    · rw [if_pos hb] at h
      cases h
      exact ⟨hf.1, hf.2⟩
    · rw [if_neg hb] at h
      cases h2 : extractLike b fs with
      | none => rw [h2] at h; cases h
      | some p =>
        obtain ⟨g2, rest2⟩ := p
        rw [h2] at h
        cases h
        have := extractLike_flat b fs g rest2 hf.2 h2
        exact ⟨this.1, by simp [flatFormList, hf.1, this.2]⟩

theorem combineInList_flat : ∀ fs fs2, flatFormList fs = true →
    combineInList fs = some fs2 → flatFormList fs2 = true
  | .nil, fs2, _, h => by simp [combineInList] at h
  | .cons f fs, fs2, hf, h => by
    simp only [flatFormList, Bool.and_eq_true] at hf
    simp only [combineInList] at h
    cases h1 : extractLike (baseOf f) fs with
    | some p =>
      obtain ⟨g, rest⟩ := p
      rw [h1] at h
      cases h
      have := extractLike_flat (baseOf f) fs g rest hf.2 h1
      simp only [flatFormList, Bool.and_eq_true]
      exact ⟨mergeLike_flat f g hf.1 this.1, this.2⟩
    | none =>
      rw [h1] at h
      cases h2 : combineInList fs with
      | none => rw [h2] at h; cases h
      | some fs3 =>
        rw [h2] at h
        cases h
        simp only [flatFormList, Bool.and_eq_true]
        exact ⟨hf.1, combineInList_flat fs fs3 hf.2 h2⟩

theorem replaceFirst_length (f : Expr → Option ℚ) (mk : ℚ → Expr) :
    ∀ fs, (replaceFirst f mk fs).length = fs.length
  | .nil => by simp [replaceFirst]
  | .cons x xs => by
    simp only [replaceFirst]
    cases f x with
    | some v => simp [ExprList.length]
    | none => simp [ExprList.length, replaceFirst_length f mk xs]

theorem replaceFirst_flat (f : Expr → Option ℚ) (mk : ℚ → Expr)
    (hmk : ∀ v, flatForm (mk v) = true) : ∀ fs, flatFormList fs = true →
    flatFormList (replaceFirst f mk fs) = true
  | .nil, _ => by simp [replaceFirst, flatFormList]
  | .cons x xs, hf => by
    simp only [flatFormList, Bool.and_eq_true] at hf
    simp only [replaceFirst]
    cases f x with
    | some v => simp [flatFormList, hmk v, hf.2]
    | none =>
      simp [flatFormList, hf.1, replaceFirst_flat f mk hmk xs hf.2]

theorem mapExpOver_length (q : Expr) : ∀ fs : ExprList,
    (mapExpOver q fs).length = fs.length
  | .nil => by simp [mapExpOver]
  | .cons f rest => by
    simp [mapExpOver, ExprList.length, mapExpOver_length q rest]

theorem mapExpOver_flat (q : Expr) (hq : flatForm q = true) :
    ∀ fs : ExprList, flatFormList fs = true →
    flatFormList (mapExpOver q fs) = true
  | .nil, _ => by simp [mapExpOver, flatFormList]
  | .cons f rest, hf => by
    simp only [flatFormList, Bool.and_eq_true] at hf
    simp only [mapExpOver, flatFormList, Bool.and_eq_true]
    exact ⟨by simp [flatForm, hf.1, hq], mapExpOver_flat q hq rest hf.2⟩

theorem mapMulOver_flat (r : Expr) (hr : flatForm r = true) :
    ∀ ts : ExprList, flatFormList ts = true →
    flatFormList (mapMulOver r ts) = true
  | .nil, _ => by simp [mapMulOver, flatFormList]
  | .cons t rest, ht => by
    simp only [flatFormList, Bool.and_eq_true] at ht
    simp only [mapMulOver, flatFormList, Bool.and_eq_true]
    exact ⟨mulCombine_flat t r ht.1 hr, mapMulOver_flat r hr rest ht.2⟩

theorem mapMulOver_notAdd (r : Expr) (hr : flatForm r = true) :
    ∀ ts : ExprList, flatFormList ts = true →
    allNotAdd (mapMulOver r ts) = true
  | .nil, _ => by simp [mapMulOver, allNotAdd]
  | .cons t rest, ht => by
    simp only [flatFormList, Bool.and_eq_true] at ht
    simp only [mapMulOver, allNotAdd, Bool.and_eq_true]
    refine ⟨?_, mapMulOver_notAdd r hr rest ht.2⟩
    simp [mulCombine_notAdd t r ht.1 hr]

theorem extractFirstAdd_flat : ∀ fs ts rest, flatFormList fs = true →
    extractFirstAdd fs = some (ts, rest) →
    (allNotAdd ts = true ∧ flatFormList ts = true) ∧ flatFormList rest = true
  | .nil, ts, rest, _, h => by simp [extractFirstAdd] at h
  | .cons f fs, ts, rest, hf, h => by
    simp only [flatFormList, Bool.and_eq_true] at hf
    simp only [extractFirstAdd] at h
    cases f with
    | Add ts2 =>
      cases h
      have := hf.1
      simp only [flatForm, Bool.and_eq_true] at this
      exact ⟨⟨this.1, this.2⟩, hf.2⟩
    | Primary p =>
      cases h2 : extractFirstAdd fs with
      | none => rw [h2] at h; cases h
      | some pr =>
        obtain ⟨ts2, rest2⟩ := pr
        rw [h2] at h
        cases h
        have := extractFirstAdd_flat fs ts rest2 hf.2 h2
        exact ⟨this.1, by simp [flatFormList, hf.1, this.2]⟩
    | Mul fs3 =>
      cases h2 : extractFirstAdd fs with
      | none => rw [h2] at h; cases h
      | some pr =>
        obtain ⟨ts2, rest2⟩ := pr
        rw [h2] at h
        cases h
        have := extractFirstAdd_flat fs ts rest2 hf.2 h2
        exact ⟨this.1, by simp [flatFormList, hf.1, this.2]⟩
    | Exp l r =>
      cases h2 : extractFirstAdd fs with
      | none => rw [h2] at h; cases h
      | some pr =>
        obtain ⟨ts2, rest2⟩ := pr
        rw [h2] at h
        cases h
        have := extractFirstAdd_flat fs ts rest2 hf.2 h2
        exact ⟨this.1, by simp [flatFormList, hf.1, this.2]⟩

theorem addZero_flat (x y : Expr) (hx : flatForm x = true)
    (h : addZero x = some y) : flatForm y = true := by
  cases x with
  | Add ts =>
    simp only [flatForm, Bool.and_eq_true] at hx
    simp only [addZero] at h
    by_cases hc : containsWith isZeroE ts = true
    · rw [if_pos hc] at h
      cases h
      exact collapseAdd_flat _ (removeAll_notAdd _ ts hx.1)
        (removeAll_flat _ ts hx.2)
    · rw [if_neg hc] at h; cases h
  | Primary p => simp [addZero] at h
  | Mul fs => simp [addZero] at h
  | Exp l r => simp [addZero] at h

theorem multiplyZero_flat (x y : Expr)
    (h : multiplyZero x = some y) : flatForm y = true := by
  cases x with
  | Mul fs =>
    simp only [multiplyZero] at h
    by_cases hc : containsWith isZeroE fs = true
    · rw [if_pos hc] at h
      cases h
      simp [num, flatForm]
    · rw [if_neg hc] at h; cases h
  | Primary p => simp [multiplyZero] at h
  | Add ts => simp [multiplyZero] at h
  | Exp l r => simp [multiplyZero] at h

theorem multiplyOne_flat (x y : Expr) (hx : flatForm x = true)
    (h : multiplyOne x = some y) : flatForm y = true := by
  cases x with
  | Mul fs =>
    simp only [flatForm, Bool.and_eq_true] at hx
    simp only [multiplyOne] at h
    by_cases hc : containsWith isOneE fs = true
    · rw [if_pos hc] at h
      cases h
      exact collapseMul_flat _ (removeAll_flat _ fs hx.2)
    · rw [if_neg hc] at h; cases h
  | Primary p => simp [multiplyOne] at h
  | Add ts => simp [multiplyOne] at h
  | Exp l r => simp [multiplyOne] at h

theorem reduceFraction_flat (x y : Expr) (hx : flatForm x = true)
    (h : reduceFraction x = some y) : flatForm y = true := by
  cases x with
  | Mul fs =>
    simp only [flatForm, Bool.and_eq_true, decide_eq_true_eq] at hx
    simp only [reduceFraction] at h
    cases h1 : findFirst intNumVal fs with
    | none => rw [h1] at h; cases h
    | some n =>
      cases h2 : findFirst intRecipVal fs with
      | none => rw [h1, h2] at h; cases h
      | some d =>
        rw [h1, h2] at h
        dsimp only at h
        by_cases hg : 1 < Int.gcd n.num d.num
        · rw [if_pos hg] at h
          cases h
          have hm1 : ∀ v : ℚ, flatForm (num (qDivInt v (Int.gcd n.num d.num))) = true := by
            intro v; simp [num, flatForm]
          have hm2 : ∀ v : ℚ, flatForm
              (Expr.Exp (num (qDivInt v (Int.gcd n.num d.num))) (num (-1))) = true := by
            intro v; simp [num, flatForm]
          have hlen := replaceFirst_length intRecipVal
            (fun dv => Expr.Exp (num (qDivInt dv (Int.gcd n.num d.num))) (num (-1)))
            (replaceFirst intNumVal
              (fun nv => num (qDivInt nv (Int.gcd n.num d.num))) fs)
          have hlen2 := replaceFirst_length intNumVal
            (fun nv => num (qDivInt nv (Int.gcd n.num d.num))) fs
          have hfl := replaceFirst_flat intRecipVal _ hm2 _
            (replaceFirst_flat intNumVal _ hm1 fs hx.2)
          simp only [flatForm, Bool.and_eq_true, decide_eq_true_eq]
          refine ⟨?_, hfl⟩
          rw [hlen, hlen2]
          exact hx.1
        · rw [if_neg hg] at h; cases h
  | Primary p => simp [reduceFraction] at h
  | Add ts => simp [reduceFraction] at h
  | Exp l r => simp [reduceFraction] at h

theorem combineLikeFactors_flat (x y : Expr) (hx : flatForm x = true)
    (h : combineLikeFactors x = some y) : flatForm y = true := by
  cases x with
  | Mul fs =>
    simp only [flatForm, Bool.and_eq_true] at hx
    simp only [combineLikeFactors] at h
    cases hc : combineInList fs with
    | none => rw [hc] at h; cases h
    | some fs2 =>
      rw [hc] at h
      cases h
      exact collapseMul_flat fs2 (combineInList_flat fs fs2 hx.2 hc)
  | Primary p => simp [combineLikeFactors] at h
  | Add ts => simp [combineLikeFactors] at h
  | Exp l r => simp [combineLikeFactors] at h

theorem powerZero_flat (x y : Expr)
    (h : powerZero x = some y) : flatForm y = true := by
  unfold powerZero at h
  split at h
  · split at h
    · cases h; simp [num, flatForm]
    · cases h
  · cases h

theorem powerOne_flat (x y : Expr) (hx : flatForm x = true)
    (h : powerOne x = some y) : flatForm y = true := by
  unfold powerOne at h
  split at h
  · split at h
    · cases h
      simp only [flatForm, Bool.and_eq_true] at hx
      exact hx.1
    · cases h
  · cases h

theorem powerZeroLeft_flat (x y : Expr)
    (h : powerZeroLeft x = some y) : flatForm y = true := by
  unfold powerZeroLeft at h
  split at h
  · split at h
    · cases h; simp [num, flatForm]
    · cases h
  · cases h

theorem powerOneLeft_flat (x y : Expr)
    (h : powerOneLeft x = some y) : flatForm y = true := by
  unfold powerOneLeft at h
  split at h
  · split at h
    · cases h; simp [num, flatForm]
    · cases h
  · cases h

theorem powerPower_flat (x y : Expr) (hx : flatForm x = true)
    (h : powerPower x = some y) : flatForm y = true := by
  unfold powerPower at h
  split at h
  · cases h
    simp only [flatForm, Bool.and_eq_true] at hx
    simp only [flatForm, Bool.and_eq_true]
    exact ⟨hx.1.1, mulCombine_flat _ _ hx.1.2 hx.2⟩
  · cases h

theorem distributePower_flat (x y : Expr) (hx : flatForm x = true)
    (h : distributePower x = some y) : flatForm y = true := by
  unfold distributePower at h
  split at h
  next fs q =>
    cases h
    simp only [flatForm, Bool.and_eq_true, decide_eq_true_eq] at hx
    simp only [flatForm, Bool.and_eq_true, decide_eq_true_eq]
    rw [mapExpOver_length]
    exact ⟨hx.1.1, mapExpOver_flat q hx.2 fs hx.1.2⟩
  next => cases h

theorem distributiveProperty_flat (x y : Expr) (hx : flatForm x = true)
    (h : distributiveProperty x = some y) : flatForm y = true := by
  cases x with
  | Mul fs =>
    simp only [flatForm, Bool.and_eq_true] at hx
    simp only [distributiveProperty] at h
    cases hE : extractFirstAdd fs with
    | none => rw [hE] at h; cases h
    | some p =>
      obtain ⟨ts, rest⟩ := p
      rw [hE] at h
      dsimp only at h
      obtain ⟨⟨hts1, hts2⟩, hrest⟩ := extractFirstAdd_flat fs ts rest hx.2 hE
      have hr : flatForm (collapseMul rest) = true := collapseMul_flat rest hrest
      cases ha : default_complexity (Expr.Add (mapMulOver (collapseMul rest) ts)) with
      | none => rw [ha] at h; cases h
      | some a =>
        cases hb : default_complexity (Expr.Mul fs) with
        | none => rw [ha, hb] at h; cases h
        | some b2 =>
          rw [ha, hb] at h
          by_cases hab : a < b2
          · simp only [if_pos hab] at h
            cases h
            simp [flatForm, mapMulOver_notAdd _ hr ts hts2,
              mapMulOver_flat _ hr ts hts2]
          · simp [if_neg hab] at h
  | Primary p => simp [distributiveProperty] at h
  | Add ts => simp [distributiveProperty] at h
  | Exp l r => simp [distributiveProperty] at h

theorem rulesAll_flat (x y : Expr) (st : Step) (hx : flatForm x = true)
    (h : rulesAll x = some (y, st)) : flatForm y = true := by
  unfold rulesAll at h
  cases h1 : addZero x with
  | some z => rw [h1] at h; cases h; exact addZero_flat x y hx h1
  | none =>
  rw [h1] at h
  cases h2 : multiplyZero x with
  | some z => rw [h2] at h; cases h; exact multiplyZero_flat x y h2
  | none =>
  rw [h2] at h
  cases h3 : multiplyOne x with
  | some z => rw [h3] at h; cases h; exact multiplyOne_flat x y hx h3
  | none =>
  rw [h3] at h
  cases h4 : combineLikeFactors x with
  | some z => rw [h4] at h; cases h; exact combineLikeFactors_flat x y hx h4
  | none =>
  rw [h4] at h
  cases h5 : reduceFraction x with
  | some z => rw [h5] at h; cases h; exact reduceFraction_flat x y hx h5
  | none =>
  rw [h5] at h
  cases h6 : powerZero x with
  | some z => rw [h6] at h; cases h; exact powerZero_flat x y h6
  | none =>
  rw [h6] at h
  cases h7 : powerOne x with
  | some z => rw [h7] at h; cases h; exact powerOne_flat x y hx h7
  | none =>
  rw [h7] at h
  cases h8 : powerZeroLeft x with
  | some z => rw [h8] at h; cases h; exact powerZeroLeft_flat x y h8
  | none =>
  rw [h8] at h
  cases h9 : powerOneLeft x with
  | some z => rw [h9] at h; cases h; exact powerOneLeft_flat x y h9
  | none =>
  rw [h9] at h
  cases h10 : powerPower x with
  | some z => rw [h10] at h; cases h; exact powerPower_flat x y hx h10
  | none =>
  rw [h10] at h
  cases h11 : distributePower x with
  | some z => rw [h11] at h; cases h; exact distributePower_flat x y hx h11
  | none =>
  rw [h11] at h
  cases h12 : distributiveProperty x with
  | some z => rw [h12] at h; cases h; exact distributiveProperty_flat x y hx h12
  | none => rw [h12] at h; cases h


theorem inner_succ (fuel : ℕ) (e : Expr) :
    inner_simplify_with (fuel + 1) e =
      match rulesAll e with
      | some (e2, st) =>
        match inner_simplify_with fuel e2 with
        | none => none
        | some (v, _, sts) => some (v, true, st :: sts)
      | none =>
        match e with
        | .Primary p => some (.Primary p, false, [])
        | .Add ts =>
          match innerFold (inner_simplify_with fuel) ts with
          | none => none
          | some (ts2, ch, sts) =>
            if ch then
              match inner_simplify_with fuel (rebuildAdd ts2) with
              | none => none
              | some (v, _, sts2) => some (v, true, sts ++ sts2)
            else some (rebuildAdd ts2, false, sts)
        | .Mul fs =>
          match innerFold (inner_simplify_with fuel) fs with
          | none => none
          | some (fs2, ch, sts) =>
            if ch then
              match inner_simplify_with fuel (Expr.Mul fs2) with
              | none => none
              | some (v, _, sts2) => some (v, true, sts ++ sts2)
            else some (Expr.Mul fs2, false, sts)
        | .Exp l r =>
          match inner_simplify_with fuel l with
          | none => none
          | some (l2, bl, sl) =>
            match inner_simplify_with fuel r with
            | none => none
            | some (r2, br, sr) =>
              if bl || br then
                match inner_simplify_with fuel (Expr.Exp l2 r2) with
                | none => none
                | some (v, _, sts2) => some (v, true, sl ++ sr ++ sts2)
              else some (Expr.Exp l2 r2, false, sl ++ sr) := rfl

theorem innerFold_length (g : Expr → Option (Expr × Bool × List Step)) :
    ∀ ts ts2 ch sts, innerFold g ts = some (ts2, ch, sts) →
      ts2.length = ts.length
  | .nil, ts2, ch, sts, h => by
    simp only [innerFold] at h
    cases h
    rfl
  | .cons e es, ts2, ch, sts, h => by
    simp only [innerFold] at h
    cases hg : g e with
    | none => rw [hg] at h; cases h
    | some r1 =>
      obtain ⟨e2, b1, s1⟩ := r1
      rw [hg] at h
      cases hf : innerFold g es with
      | none => rw [hf] at h; cases h
      | some r2 =>
        obtain ⟨es2, b2, s2⟩ := r2
        rw [hf] at h
        cases h
        simp [ExprList.length, innerFold_length g es es2 b2 s2 hf]

theorem innerFold_flat (g : Expr → Option (Expr × Bool × List Step))
    (hg : ∀ e v b s, flatForm e = true → g e = some (v, b, s) →
      flatForm v = true) :
    ∀ ts ts2 ch sts, flatFormList ts = true →
      innerFold g ts = some (ts2, ch, sts) → flatFormList ts2 = true
  | .nil, ts2, ch, sts, _, h => by
    simp only [innerFold] at h
    cases h
    rfl
  | .cons e es, ts2, ch, sts, hts, h => by
    simp only [flatFormList, Bool.and_eq_true] at hts
    simp only [innerFold] at h
    cases hge : g e with
    | none => rw [hge] at h; cases h
    | some r1 =>
      obtain ⟨e2, b1, s1⟩ := r1
      rw [hge] at h
      cases hf : innerFold g es with
      | none => rw [hf] at h; cases h
      | some r2 =>
        obtain ⟨es2, b2, s2⟩ := r2
        rw [hf] at h
        cases h
        simp only [flatFormList, Bool.and_eq_true]
        exact ⟨hg e e2 b1 s1 hts.1 hge,
          innerFold_flat g hg es es2 b2 s2 hts.2 hf⟩

theorem innerFold_false (g : Expr → Option (Expr × Bool × List Step))
    (hg : ∀ e v s, flatForm e = true → g e = some (v, false, s) →
      v = e ∧ s = []) :
    ∀ ts ts2 sts, flatFormList ts = true →
      innerFold g ts = some (ts2, false, sts) → ts2 = ts ∧ sts = []
  | .nil, ts2, sts, _, h => by
    simp only [innerFold] at h
    cases h
    exact ⟨rfl, rfl⟩
  | .cons e es, ts2, sts, hts, h => by
    simp only [flatFormList, Bool.and_eq_true] at hts
    simp only [innerFold] at h
    cases hge : g e with
    | none => rw [hge] at h; cases h
    | some r1 =>
      obtain ⟨e2, b1, s1⟩ := r1
      rw [hge] at h
      cases hf : innerFold g es with
      | none => rw [hf] at h; cases h
      | some r2 =>
        obtain ⟨es2, b2, s2⟩ := r2
        rw [hf] at h
        simp only [Option.some.injEq, Prod.mk.injEq] at h
        obtain ⟨hts2, hb, hsts⟩ := h
        have hb1 : b1 = false := by
          cases b1 <;> simp_all
        have hb2 : b2 = false := by
          cases b2 <;> simp_all
        subst hb1
        obtain ⟨he2, hs1⟩ := hg e e2 s1 hts.1 hge
        subst hb2
        obtain ⟨hes2, hs2⟩ := innerFold_false g hg es es2 s2 hts.2 hf
        subst he2
        subst hes2
        subst hs1
        subst hs2
        exact ⟨hts2.symm, hsts.symm⟩

theorem innerFold_mono (g g2 : Expr → Option (Expr × Bool × List Step))
    (hg : ∀ e r, g e = some r → g2 e = some r) :
    ∀ ts r, innerFold g ts = some r → innerFold g2 ts = some r
  | .nil, r, h => by
    simpa only [innerFold] using h
  | .cons e es, r, h => by
    simp only [innerFold] at h ⊢
    cases hge : g e with
    | none => rw [hge] at h; cases h
    | some r1 =>
      rw [hge] at h
      rw [hg e r1 hge]
      cases hf : innerFold g es with
      | none => rw [hf] at h; cases h
      | some r2 =>
        rw [hf] at h
        rw [innerFold_mono g g2 hg es r2 hf]
        exact h

theorem inner_flat : ∀ fuel e v b s, flatForm e = true →
    inner_simplify_with fuel e = some (v, b, s) → flatForm v = true
  | 0, e, v, b, s, _, h => by cases h
  | fuel + 1, e, v, b, s, he, h => by
    simp only [inner_simplify_with] at h
    cases hr : rulesAll e with
    | some p =>
      obtain ⟨e2, st⟩ := p
      rw [hr] at h
      dsimp only at h
      cases hi : inner_simplify_with fuel e2 with
      | none => rw [hi] at h; cases h
      | some r =>
        obtain ⟨v2, b2, sts⟩ := r
        rw [hi] at h
        cases h
        exact inner_flat fuel e2 _ _ _ (rulesAll_flat e e2 st he hr) hi
    | none =>
      rw [hr] at h
      dsimp only at h
      cases e with
      | Primary p =>
        dsimp only at h
        cases h
        exact he
      | Add ts =>
        dsimp only at h
        have hts : flatFormList ts = true := by
          simp only [flatForm, Bool.and_eq_true] at he
          exact he.2
        cases hF : innerFold (inner_simplify_with fuel) ts with
        | none => rw [hF] at h; cases h
        | some r =>
          obtain ⟨ts2, ch, sts0⟩ := r
          rw [hF] at h
          dsimp only at h
          have hts2 : flatFormList ts2 = true :=
            innerFold_flat _ (fun e v b s he h => inner_flat fuel e v b s he h)
              ts ts2 ch sts0 hts hF
          by_cases hch : ch = true
          · rw [if_pos hch] at h
            cases hi : inner_simplify_with fuel (rebuildAdd ts2) with
            | none => rw [hi] at h; cases h
            | some r2 =>
              obtain ⟨v2, b2, s2⟩ := r2
              rw [hi] at h
              cases h
              exact inner_flat fuel _ _ _ _ (rebuildAdd_flat ts2 hts2) hi
          · rw [if_neg hch] at h
            cases h
            exact rebuildAdd_flat ts2 hts2
      | Mul fs =>
        dsimp only at h
        have hfs : flatFormList fs = true ∧ 2 ≤ fs.length := by
          simp only [flatForm, Bool.and_eq_true, decide_eq_true_eq] at he
          exact ⟨he.2, he.1⟩
        cases hF : innerFold (inner_simplify_with fuel) fs with
        | none => rw [hF] at h; cases h
        | some r =>
          obtain ⟨fs2, ch, sts0⟩ := r
          rw [hF] at h
          dsimp only at h
          have hfs2 : flatFormList fs2 = true :=
            innerFold_flat _ (fun e v b s he h => inner_flat fuel e v b s he h)
              fs fs2 ch sts0 hfs.1 hF
          have hlen : fs2.length = fs.length :=
            innerFold_length _ fs fs2 ch sts0 hF
          have hm : flatForm (Expr.Mul fs2) = true := by
            simp only [flatForm, Bool.and_eq_true, decide_eq_true_eq]
            rw [hlen]
            exact ⟨hfs.2, hfs2⟩
          by_cases hch : ch = true
          · rw [if_pos hch] at h
            cases hi : inner_simplify_with fuel (Expr.Mul fs2) with
            | none => rw [hi] at h; cases h
            | some r2 =>
              obtain ⟨v2, b2, s2⟩ := r2
              rw [hi] at h
              cases h
              exact inner_flat fuel _ _ _ _ hm hi
          · rw [if_neg hch] at h
            cases h
            exact hm
      | Exp l r =>
        dsimp only at h
        have hlr : flatForm l = true ∧ flatForm r = true := by
          simp only [flatForm, Bool.and_eq_true] at he
          exact he
        cases hil : inner_simplify_with fuel l with
        | none => rw [hil] at h; cases h
        | some rl =>
          obtain ⟨l2, bl, sl⟩ := rl
          rw [hil] at h
          dsimp only at h
          cases hir : inner_simplify_with fuel r with
          | none => rw [hir] at h; cases h
          | some rr =>
            obtain ⟨r2, br, sr⟩ := rr
            rw [hir] at h
            dsimp only at h
            have hx : flatForm (Expr.Exp l2 r2) = true := by
              simp only [flatForm, Bool.and_eq_true]
              exact ⟨inner_flat fuel l l2 bl sl hlr.1 hil,
                inner_flat fuel r r2 br sr hlr.2 hir⟩
            by_cases hbb : (bl || br) = true
            · rw [if_pos hbb] at h
              cases hi : inner_simplify_with fuel (Expr.Exp l2 r2) with
              | none => rw [hi] at h; cases h
              | some r3 =>
                obtain ⟨v2, b2, s2⟩ := r3
                rw [hi] at h
                cases h
                exact inner_flat fuel _ _ _ _ hx hi
            · rw [if_neg hbb] at h
              cases h
              exact hx

theorem inner_false : ∀ fuel e v s, flatForm e = true →
    inner_simplify_with fuel e = some (v, false, s) → v = e ∧ s = []
  | 0, e, v, s, _, h => by cases h
  | fuel + 1, e, v, s, he, h => by
    simp only [inner_simplify_with] at h
    cases hr : rulesAll e with
    | some p =>
      obtain ⟨e2, st⟩ := p
      rw [hr] at h
      dsimp only at h
      cases hi : inner_simplify_with fuel e2 with
      | none => rw [hi] at h; cases h
      | some r =>
        obtain ⟨v2, b2, sts⟩ := r
        rw [hi] at h
        simp at h
    | none =>
      rw [hr] at h
      dsimp only at h
      cases e with
      | Primary p =>
        dsimp only at h
        cases h
        exact ⟨rfl, rfl⟩
      | Add ts =>
        dsimp only at h
        have hna : allNotAdd ts = true ∧ flatFormList ts = true := by
          simp only [flatForm, Bool.and_eq_true] at he
          exact he
        cases hF : innerFold (inner_simplify_with fuel) ts with
        | none => rw [hF] at h; cases h
        | some r =>
          obtain ⟨ts2, ch, sts0⟩ := r
          rw [hF] at h
          dsimp only at h
          by_cases hch : ch = true
          · rw [if_pos hch] at h
            cases hi : inner_simplify_with fuel (rebuildAdd ts2) with
            | none => rw [hi] at h; cases h
            | some r2 =>
              obtain ⟨v2, b2, s2⟩ := r2
              rw [hi] at h
              simp at h
          · rw [if_neg hch] at h
            cases h
            have hch2 : ch = false := by cases ch <;> simp_all
            subst hch2
            obtain ⟨hts2, hsts⟩ := innerFold_false _
              (fun e v s he h => inner_false fuel e v s he h) ts ts2 s
              hna.2 hF
            constructor
            · rw [hts2]
              simp only [rebuildAdd]
              rw [spliceAdd_id ts hna.1]
            · exact hsts
      | Mul fs =>
        dsimp only at h
        have hfl : flatFormList fs = true := by
          simp only [flatForm, Bool.and_eq_true] at he
          exact he.2
        cases hF : innerFold (inner_simplify_with fuel) fs with
        | none => rw [hF] at h; cases h
        | some r =>
          obtain ⟨fs2, ch, sts0⟩ := r
          rw [hF] at h
          dsimp only at h
          by_cases hch : ch = true
          · rw [if_pos hch] at h
            cases hi : inner_simplify_with fuel (Expr.Mul fs2) with
            | none => rw [hi] at h; cases h
            | some r2 =>
              obtain ⟨v2, b2, s2⟩ := r2
              rw [hi] at h
              simp at h
          · rw [if_neg hch] at h
            cases h
            have hch2 : ch = false := by cases ch <;> simp_all
            subst hch2
            obtain ⟨hfs2, hsts⟩ := innerFold_false _
              (fun e v s he h => inner_false fuel e v s he h) fs fs2 s
              hfl hF
            exact ⟨by rw [hfs2], hsts⟩
      | Exp l r =>
        dsimp only at h
        have hlr : flatForm l = true ∧ flatForm r = true := by
          simp only [flatForm, Bool.and_eq_true] at he
          exact he
        cases hil : inner_simplify_with fuel l with
        | none => rw [hil] at h; cases h
        | some rl =>
          obtain ⟨l2, bl, sl⟩ := rl
          rw [hil] at h
          dsimp only at h
          cases hir : inner_simplify_with fuel r with
          | none => rw [hir] at h; cases h
          | some rr =>
            obtain ⟨r2, br, sr⟩ := rr
            rw [hir] at h
            dsimp only at h
            by_cases hbb : (bl || br) = true
            · rw [if_pos hbb] at h
              cases hi : inner_simplify_with fuel (Expr.Exp l2 r2) with
              | none => rw [hi] at h; cases h
              | some r3 =>
                obtain ⟨v2, b2, s2⟩ := r3
                rw [hi] at h
                simp at h
            · rw [if_neg hbb] at h
              cases h
              have hbl : bl = false := by cases bl <;> simp_all
              have hbr : br = false := by cases br <;> simp_all
              subst hbl
              subst hbr
              obtain ⟨hl2, hsl⟩ := inner_false fuel l l2 sl hlr.1 hil
              obtain ⟨hr2, hsr⟩ := inner_false fuel r r2 sr hlr.2 hir
              subst hl2
              subst hr2
              subst hsl
              subst hsr
              exact ⟨rfl, rfl⟩

theorem inner_mono : ∀ fuel e r, inner_simplify_with fuel e = some r →
    inner_simplify_with (fuel + 1) e = some r
  | 0, e, r, h => by cases h
  | fuel + 1, e, r, h => by
    simp only [inner_simplify_with] at h
    rw [inner_succ]
    cases hr : rulesAll e with
    | some p =>
      obtain ⟨e2, st⟩ := p
      rw [hr] at h
      dsimp only at h ⊢
      cases hi : inner_simplify_with fuel e2 with
      | none => rw [hi] at h; cases h
      | some r2 =>
        rw [hi] at h
        rw [inner_mono fuel e2 r2 hi]
        exact h
    | none =>
      rw [hr] at h
      dsimp only at h ⊢
      cases e with
      | Primary p =>
        dsimp only at h ⊢
        exact h
      | Add ts =>
        dsimp only at h ⊢
        cases hF : innerFold (inner_simplify_with fuel) ts with
        | none => rw [hF] at h; cases h
        | some rf =>
          obtain ⟨ts2, ch, sts0⟩ := rf
          rw [hF] at h
          rw [innerFold_mono _ _ (fun e r h => inner_mono fuel e r h) ts _ hF]
          dsimp only at h ⊢
          by_cases hch : ch = true
          · rw [if_pos hch] at h ⊢
            cases hi : inner_simplify_with fuel (rebuildAdd ts2) with
            | none => rw [hi] at h; cases h
            | some r2 =>
              rw [hi] at h
              rw [inner_mono fuel _ r2 hi]
              exact h
          · rw [if_neg hch] at h ⊢
            exact h
      | Mul fs =>
        dsimp only at h ⊢
        cases hF : innerFold (inner_simplify_with fuel) fs with
        | none => rw [hF] at h; cases h
        | some rf =>
          obtain ⟨fs2, ch, sts0⟩ := rf
          rw [hF] at h
          rw [innerFold_mono _ _ (fun e r h => inner_mono fuel e r h) fs _ hF]
          dsimp only at h ⊢
          by_cases hch : ch = true
          · rw [if_pos hch] at h ⊢
            cases hi : inner_simplify_with fuel (Expr.Mul fs2) with
            | none => rw [hi] at h; cases h
            | some r2 =>
              rw [hi] at h
              rw [inner_mono fuel _ r2 hi]
              exact h
          · rw [if_neg hch] at h ⊢
            exact h
      | Exp l r2 =>
        dsimp only at h ⊢
        cases hil : inner_simplify_with fuel l with
        | none => rw [hil] at h; cases h
        | some rl =>
          rw [hil] at h
          rw [inner_mono fuel l rl hil]
          obtain ⟨l2, bl, sl⟩ := rl
          dsimp only at h ⊢
          cases hir : inner_simplify_with fuel r2 with
          | none => rw [hir] at h; cases h
          | some rr =>
            rw [hir] at h
            rw [inner_mono fuel r2 rr hir]
            obtain ⟨r3, br, sr⟩ := rr
            dsimp only at h ⊢
            by_cases hbb : (bl || br) = true
            · rw [if_pos hbb] at h ⊢
              cases hi : inner_simplify_with fuel (Expr.Exp l2 r3) with
              | none => rw [hi] at h; cases h
              | some r4 =>
                rw [hi] at h
                rw [inner_mono fuel _ r4 hi]
                exact h
            · rw [if_neg hbb] at h ⊢
              exact h

theorem inner_mono_le : ∀ f2 f1, f1 ≤ f2 → ∀ e r,
    inner_simplify_with f1 e = some r → inner_simplify_with f2 e = some r := by
  intro f2
  induction f2 with
  | zero =>
    intro f1 hle e r h
    have : f1 = 0 := Nat.le_zero.mp hle
    subst this
    exact h
  | succ n ih =>
    intro f1 hle e r h
    rcases Nat.lt_or_ge f1 (n + 1) with hlt | hge
    · exact inner_mono n e r (ih f1 (Nat.lt_succ_iff.mp hlt) e r h)
    · have : f1 = n + 1 := Nat.le_antisymm hle hge
      subst this
      exact h

theorem innerFold_fix (fuel : ℕ)
    (hfix : ∀ e v b s, flatForm e = true →
      inner_simplify_with fuel e = some (v, b, s) →
      ∃ f2, inner_simplify_with f2 v = some (v, false, [])) :
    ∀ ts ts2 sts, flatFormList ts = true →
      innerFold (inner_simplify_with fuel) ts = some (ts2, false, sts) →
      ∃ f2, innerFold (inner_simplify_with f2) ts2 = some (ts2, false, [])
  | .nil, ts2, sts, _, h => by
    simp only [innerFold] at h
    cases h
    exact ⟨1, rfl⟩
  | .cons e es, ts2, sts, hts, h => by
    simp only [flatFormList, Bool.and_eq_true] at hts
    simp only [innerFold] at h
    cases hge : inner_simplify_with fuel e with
    | none => rw [hge] at h; cases h
    | some r1 =>
      obtain ⟨e2, b1, s1⟩ := r1
      rw [hge] at h
      cases hf : innerFold (inner_simplify_with fuel) es with
      | none => rw [hf] at h; cases h
      | some r2 =>
        obtain ⟨es2, b2, s2⟩ := r2
        rw [hf] at h
        simp only [Option.some.injEq, Prod.mk.injEq] at h
        obtain ⟨hts2, hb, hsts⟩ := h
        have hb2 : b2 = false := by cases b2 <;> simp_all
        subst hb2
        obtain ⟨fe, hfe⟩ := hfix e e2 b1 s1 hts.1 hge
        obtain ⟨fr, hfr⟩ := innerFold_fix fuel hfix es es2 s2 hts.2 hf
        refine ⟨max fe fr, ?_⟩
        subst hts2
        simp only [innerFold]
        rw [inner_mono_le (max fe fr) fe (Nat.le_max_left fe fr) e2 _ hfe]
        rw [innerFold_mono _ _
          (fun e r h => inner_mono_le (max fe fr) fr (Nat.le_max_right fe fr) e r h)
          es2 _ hfr]
        rfl

theorem inner_fix : ∀ fuel e v b s, flatForm e = true →
    inner_simplify_with fuel e = some (v, b, s) →
    ∃ f2, inner_simplify_with f2 v = some (v, false, [])
  | 0, e, v, b, s, _, h => by cases h
  | fuel + 1, e, v, b, s, he, h => by
    simp only [inner_simplify_with] at h
    cases hr : rulesAll e with
    | some p =>
      obtain ⟨e2, st⟩ := p
      rw [hr] at h
      dsimp only at h
      cases hi : inner_simplify_with fuel e2 with
      | none => rw [hi] at h; cases h
      | some r =>
        obtain ⟨v2, b2, sts⟩ := r
        rw [hi] at h
        cases h
        exact inner_fix fuel e2 _ _ _ (rulesAll_flat e e2 st he hr) hi
    | none =>
      rw [hr] at h
      dsimp only at h
      cases e with
      | Primary p =>
        dsimp only at h
        cases h
        refine ⟨1, ?_⟩
        simp only [inner_simplify_with]
        rw [hr]
      | Add ts =>
        dsimp only at h
        have hna : allNotAdd ts = true ∧ flatFormList ts = true := by
          simp only [flatForm, Bool.and_eq_true] at he
          exact he
        cases hF : innerFold (inner_simplify_with fuel) ts with
        | none => rw [hF] at h; cases h
        | some r =>
          obtain ⟨ts2, ch, sts0⟩ := r
          rw [hF] at h
          dsimp only at h
          by_cases hch : ch = true
          · rw [if_pos hch] at h
            cases hi : inner_simplify_with fuel (rebuildAdd ts2) with
            | none => rw [hi] at h; cases h
            | some r2 =>
              obtain ⟨v2, b2, s2⟩ := r2
              rw [hi] at h
              cases h
              have hts2 : flatFormList ts2 = true :=
                innerFold_flat _
                  (fun e v b s he h => inner_flat fuel e v b s he h)
                  ts ts2 ch sts0 hna.2 hF
              exact inner_fix fuel _ _ _ _ (rebuildAdd_flat ts2 hts2) hi
          · rw [if_neg hch] at h
            cases h
            have hch2 : ch = false := by cases ch <;> simp_all
            subst hch2
            obtain ⟨hts2, hsts⟩ := innerFold_false _
              (fun e v s he h => inner_false fuel e v s he h) ts ts2 s
              hna.2 hF
            rw [hts2] at hF
            obtain ⟨f2, hfix2⟩ := innerFold_fix fuel
              (fun e v b s he h => inner_fix fuel e v b s he h) ts ts
              s hna.2 hF
            refine ⟨f2 + 1, ?_⟩
            have hre : rebuildAdd ts = Expr.Add ts := by
              simp only [rebuildAdd]
              rw [spliceAdd_id ts hna.1]
            rw [hts2, hre]
            simp only [inner_simplify_with]
            rw [hr]
            dsimp only
            rw [hfix2]
            dsimp only
            rw [if_neg (by simp)]
            rw [hre]
      | Mul fs =>
        dsimp only at h
        have hfl : flatFormList fs = true := by
          simp only [flatForm, Bool.and_eq_true] at he
          exact he.2
        cases hF : innerFold (inner_simplify_with fuel) fs with
        | none => rw [hF] at h; cases h
        | some r =>
          obtain ⟨fs2, ch, sts0⟩ := r
          rw [hF] at h
          dsimp only at h
          by_cases hch : ch = true
          · rw [if_pos hch] at h
            cases hi : inner_simplify_with fuel (Expr.Mul fs2) with
            | none => rw [hi] at h; cases h
            | some r2 =>
              obtain ⟨v2, b2, s2⟩ := r2
              rw [hi] at h
              cases h
              have hfs2 : flatFormList fs2 = true :=
                innerFold_flat _
                  (fun e v b s he h => inner_flat fuel e v b s he h)
                  fs fs2 ch sts0 hfl hF
              have hlen : fs2.length = fs.length :=
                innerFold_length _ fs fs2 ch sts0 hF
              have hm : flatForm (Expr.Mul fs2) = true := by
                simp only [flatForm, Bool.and_eq_true, decide_eq_true_eq] at he ⊢
                rw [hlen]
                exact ⟨he.1, hfs2⟩
              exact inner_fix fuel _ _ _ _ hm hi
          · rw [if_neg hch] at h
            cases h
            have hch2 : ch = false := by cases ch <;> simp_all
            subst hch2
            obtain ⟨hfs2, hsts⟩ := innerFold_false _
              (fun e v s he h => inner_false fuel e v s he h) fs fs2 s
              hfl hF
            rw [hfs2] at hF
            obtain ⟨f2, hfix2⟩ := innerFold_fix fuel
              (fun e v b s he h => inner_fix fuel e v b s he h) fs fs
              s hfl hF
            refine ⟨f2 + 1, ?_⟩
            rw [hfs2]
            simp only [inner_simplify_with]
            rw [hr]
            dsimp only
            rw [hfix2]
            dsimp only
            rw [if_neg (by simp)]
      | Exp l r2 =>
        dsimp only at h
        have hlr : flatForm l = true ∧ flatForm r2 = true := by
          simp only [flatForm, Bool.and_eq_true] at he
          exact he
        cases hil : inner_simplify_with fuel l with
        | none => rw [hil] at h; cases h
        | some rl =>
          obtain ⟨l2, bl, sl⟩ := rl
          rw [hil] at h
          dsimp only at h
          cases hir : inner_simplify_with fuel r2 with
          | none => rw [hir] at h; cases h
          | some rr =>
            obtain ⟨r3, br, sr⟩ := rr
            rw [hir] at h
            dsimp only at h
            by_cases hbb : (bl || br) = true
            · rw [if_pos hbb] at h
              cases hi : inner_simplify_with fuel (Expr.Exp l2 r3) with
              | none => rw [hi] at h; cases h
              | some r4 =>
                obtain ⟨v2, b2, s2⟩ := r4
                rw [hi] at h
                cases h
                have hx : flatForm (Expr.Exp l2 r3) = true := by
                  simp only [flatForm, Bool.and_eq_true]
                  exact ⟨inner_flat fuel l l2 bl sl hlr.1 hil,
                    inner_flat fuel r2 r3 br sr hlr.2 hir⟩
                exact inner_fix fuel _ _ _ _ hx hi
            · rw [if_neg hbb] at h
              cases h
              have hbl : bl = false := by cases bl <;> simp_all
              have hbr : br = false := by cases br <;> simp_all
              subst hbl
              subst hbr
              obtain ⟨hl2, hsl⟩ := inner_false fuel l l2 sl hlr.1 hil
              obtain ⟨hr2, hsr⟩ := inner_false fuel r2 r3 sr hlr.2 hir
              subst hl2
              subst hr2
              obtain ⟨fl2, hfl2⟩ := inner_fix fuel l2 l2 false sl hlr.1 hil
              obtain ⟨fr2, hfr2⟩ := inner_fix fuel r3 r3 false sr hlr.2 hir
              refine ⟨max fl2 fr2 + 1, ?_⟩
              simp only [inner_simplify_with]
              rw [hr]
              dsimp only
              rw [inner_mono_le (max fl2 fr2) fl2 (Nat.le_max_left fl2 fr2)
                l2 _ hfl2]
              dsimp only
              rw [inner_mono_le (max fl2 fr2) fr2 (Nat.le_max_right fl2 fr2)
                r3 _ hfr2]
              dsimp only
              rw [if_neg (by simp)]
              rfl

theorem distributiveProperty_lowers (x y : Expr)
    (h : distributiveProperty x = some y) :
    ∃ a b, default_complexity y = some a ∧ default_complexity x = some b ∧
      a < b := by
  cases x with
  | Primary p => simp [distributiveProperty] at h
  | Add ts => simp [distributiveProperty] at h
  | Exp l r => simp [distributiveProperty] at h
  | Mul fs =>
    simp only [distributiveProperty] at h
    cases hE : extractFirstAdd fs with
    | none => rw [hE] at h; cases h
    | some p =>
      obtain ⟨ts, rest⟩ := p
      rw [hE] at h
      dsimp only at h
      cases ha : default_complexity (Expr.Add (mapMulOver (collapseMul rest) ts)) with
      | none => rw [ha] at h; cases h
      | some a =>
        cases hb : default_complexity (Expr.Mul fs) with
        | none => rw [ha, hb] at h; cases h
        | some b =>
          rw [ha, hb] at h
          by_cases hab : a < b
          · simp only [if_pos hab] at h
            obtain rfl := Option.some_injective _ h
            exact ⟨a, b, ha, rfl, hab⟩
          · simp [if_neg hab] at h

theorem rulesAll_distributive (x y : Expr)
    (h : rulesAll x = some (y, Step.DistributiveProperty)) :
    distributiveProperty x = some y := by
  unfold rulesAll at h
  repeat' split at h
  all_goals simp_all

/-- An inner-expression parser that always fails fatally (used to exercise
the empty-parenthesis recovery path on the input `()`). -/
def stubFailParse : List Token → PRes AstExpr :=
  fun _ => .fatal [⟨[], .ExpectedToken⟩]

/-- An inner-expression parser that consumes one non-parenthesis token as the
number literal `2` (used to exercise the unclosed-parenthesis recovery path
on the input `(2`). -/
def stubNumberParse : List Token → PRes AstExpr
  | t :: rest =>
    match t.kind with
    | .other => .ok (.Literal (.Number 2 t.span)) rest []
    | _ => .fatal [⟨[t.span], .ExpectedToken⟩]
  | [] => .fatal [⟨[], .ExpectedToken⟩]

/-- C5: `Paren::std_parse` error recovery.  Whenever the opening parenthesis
has been consumed: (a) if the inner parse fails fatally and a close
parenthesis immediately follows, the parse succeeds with the fake
empty-symbol expression and pushes exactly the `EmptyParenthesis` recoverable
error spanning `open.start..close.end`; (b) if the inner parse succeeds and
no close parenthesis follows, the parse succeeds with the inner expression,
a node span ending at the zero-width synthesized closing token (`stop = 0`),
and pushes the `UnclosedParenthesis{opening: true}` recoverable error after
the forwarded inner errors.  In both cases the result is `ok` (a well-formed
`Paren`), not `fatal`. -/
theorem C5_paren_recovery
    (P : List Token → PRes AstExpr) (input : List Token)
    (openSpan : Span) (st1 : List Token)
    (hopen : tryParseOpen input = some (openSpan, st1)) :
    (∀ perrs closeSpan st2, P st1 = .fatal perrs →
      tryParseClose st1 = some (closeSpan, st2) →
      parenStdParse P input =
        .ok ⟨.Literal (.Symbol ⟨"", ⟨0, 0⟩⟩), ⟨openSpan.start, closeSpan.stop⟩⟩
          st2 [⟨[⟨openSpan.start, closeSpan.stop⟩], .EmptyParenthesis⟩]) ∧
    (∀ e st2 errs, P st1 = .ok e st2 errs → tryParseClose st2 = none →
      parenStdParse P input =
        .ok ⟨e, ⟨openSpan.start, 0⟩⟩ st2
          (errs ++ [⟨[openSpan], .UnclosedParenthesis true⟩])) := by
  constructor
  · intro perrs closeSpan st2 hP hclose
    simp [parenStdParse, hopen, hP, hclose]
  · intro e st2 errs hP hclose
    simp [parenStdParse, hopen, hP, hclose]

/-- Witness for C5 at two concrete token streams: `()` (empty-parenthesis
recovery) and `(2` (unclosed-parenthesis recovery). -/
theorem C5_paren_recovery_witness :
    parenStdParse stubFailParse
        [⟨.openParen, ⟨0, 1⟩⟩, ⟨.closeParen, ⟨1, 2⟩⟩] =
      .ok ⟨.Literal (.Symbol ⟨"", ⟨0, 0⟩⟩), ⟨0, 2⟩⟩ []
        [⟨[⟨0, 2⟩], .EmptyParenthesis⟩] ∧
    parenStdParse stubNumberParse
        [⟨.openParen, ⟨0, 1⟩⟩, ⟨.other, ⟨1, 2⟩⟩] =
      .ok ⟨.Literal (.Number 2 ⟨1, 2⟩), ⟨0, 0⟩⟩ []
        ([] ++ [⟨[⟨0, 1⟩], .UnclosedParenthesis true⟩]) := by
  constructor
  · exact (C5_paren_recovery stubFailParse
      [⟨.openParen, ⟨0, 1⟩⟩, ⟨.closeParen, ⟨1, 2⟩⟩] ⟨0, 1⟩
      [⟨.closeParen, ⟨1, 2⟩⟩] rfl).1 [⟨[], .ExpectedToken⟩] ⟨1, 2⟩ [] rfl rfl
  · exact (C5_paren_recovery stubNumberParse
      [⟨.openParen, ⟨0, 1⟩⟩, ⟨.other, ⟨1, 2⟩⟩] ⟨0, 1⟩
      [⟨.other, ⟨1, 2⟩⟩] rfl).2 (.Literal (.Number 2 ⟨1, 2⟩)) [] [] rfl rfl

/-- C2 fails on the code: on the token stream of `"(2"` (open parenthesis at
bytes `0..1`, the digit at bytes `1..2`), the unclosed-parenthesis recovery
in `Paren::std_parse` fakes a close parenthesis with span `0..0`, so the
returned `Paren` node has span `0..0` while its child has the non-empty span
`1..2`: the parent's span does not include the child's.  The spec's span
containment invariant is the evident intent (paying the error a recovery
should not corrupt spans), so this is recorded as a code bug. -/
theorem C2_span_violation :
    ∃ p rest errs,
      parenStdParse stubNumberParse
        [⟨.openParen, ⟨0, 1⟩⟩, ⟨.other, ⟨1, 2⟩⟩] = .ok p rest errs ∧
      spanIncludes p.span (astSpan p.expr) = false :=
  ⟨_, _, _, rfl, rfl⟩

/-- C6: `AssignTarget::try_from_with_op` maps a bare symbol literal to an
`Ok` symbol target; a call to a recoverable `InvalidAssignmentLhs{is_call:
true}` whose recovery value is a symbol target using the call's name; and
every other expression to a recoverable `InvalidAssignmentLhs{is_call:
false}` whose recovery value is a symbol target with an empty name (spanning
the offending expression). -/
theorem C6_try_from_with_op :
    (∀ s op, AssignTarget.try_from_with_op (.Literal (.Symbol s)) op =
      .Ok (.Symbol s)) ∧
    (∀ name args span pspan op,
      AssignTarget.try_from_with_op (.Call name args span pspan) op =
        .Recoverable (.Symbol name)
          [⟨[span, op], .InvalidAssignmentLhs true⟩]) ∧
    (∀ e op, isSymbolLit e = false → isCallExpr e = false →
      AssignTarget.try_from_with_op e op =
        .Recoverable (.Symbol ⟨"", astSpan e⟩)
          [⟨[astSpan e, op], .InvalidAssignmentLhs false⟩]) := by
  refine ⟨fun s op => rfl, fun name args span pspan op => rfl, fun e op h1 h2 => ?_⟩
  cases e with
  | Literal l =>
    cases l with
    | Number v s => rfl
    | Symbol s => simp [isSymbolLit] at h1
    | Unit s => rfl
  | Paren inner s => rfl
  | Call name args s ps => simp [isCallExpr] at h2
  | Binary op2 opSpan lhs rhs s => rfl
  | Unary op2 opSpan operand s => rfl

/-- Witness for C6 at concrete inputs: the symbol `x`, the call `f(…)`, and a
parenthesized expression as the "anything else" case. -/
theorem C6_try_from_with_op_witness :
    AssignTarget.try_from_with_op (.Literal (.Symbol ⟨"x", ⟨0, 1⟩⟩)) ⟨2, 3⟩ =
      .Ok (.Symbol ⟨"x", ⟨0, 1⟩⟩) ∧
    AssignTarget.try_from_with_op
        (.Call ⟨"f", ⟨0, 1⟩⟩ [] ⟨0, 3⟩ ⟨1, 3⟩) ⟨4, 5⟩ =
      .Recoverable (.Symbol ⟨"f", ⟨0, 1⟩⟩)
        [⟨[⟨0, 3⟩, ⟨4, 5⟩], .InvalidAssignmentLhs true⟩] ∧
    AssignTarget.try_from_with_op
        (.Paren (.Literal (.Number 1 ⟨1, 2⟩)) ⟨0, 3⟩) ⟨4, 5⟩ =
      .Recoverable (.Symbol ⟨"", ⟨0, 3⟩⟩)
        [⟨[⟨0, 3⟩, ⟨4, 5⟩], .InvalidAssignmentLhs false⟩] :=
  ⟨C6_try_from_with_op.1 ⟨"x", ⟨0, 1⟩⟩ ⟨2, 3⟩,
   C6_try_from_with_op.2.1 ⟨"f", ⟨0, 1⟩⟩ [] ⟨0, 3⟩ ⟨1, 3⟩ ⟨4, 5⟩,
   C6_try_from_with_op.2.2 (.Paren (.Literal (.Number 1 ⟨1, 2⟩)) ⟨0, 3⟩) ⟨4, 5⟩
     rfl rfl⟩

/-- C1: whenever `rules::all` rewrites `x` to `y` recording
`DistributiveProperty` (which is exactly when the driver pushes that step to
the collector), the default heuristic is defined on both trees and the
result's complexity is strictly lower than the original's: the distribution
gate. -/
theorem C1_distribution_gate (x y : Expr)
    (h : rulesAll x = some (y, Step.DistributiveProperty)) :
    ∃ a b, default_complexity y = some a ∧ default_complexity x = some b ∧
      a < b :=
  distributiveProperty_lowers x y (rulesAll_distributive x y h)

/-- Witness for C1 at the concrete firing `s * (a*b + c*d)`: the rule fires
(complexity 21 < 22) and the gate inequality holds there. -/
theorem C1_distribution_gate_witness :
    rulesAll nestedAddOnce = some (nestedAddTwice, Step.DistributiveProperty) ∧
      ∃ a b, default_complexity nestedAddTwice = some a ∧
        default_complexity nestedAddOnce = some b ∧ a < b :=
  ⟨by decide, C1_distribution_gate nestedAddOnce nestedAddTwice (by decide)⟩

/-- C3 fails on the code as stated: `simplify` is not idempotent over the
whole `Expr` type.  At `nestedAddInput = s * ((a*b) + ((c*d)))`, whose nested
`Add` violates the spec's invariant 1, the first run merely splices the
nested sum (the `+=` rebuild, which does not set the changed flag) while the
distribution gate blocks (complexity 28 ≥ 26); on the spliced result the
gate passes (21 < 22), so a second run distributes and yields a different
tree. -/
theorem C3_counterexample :
    ¬ (∀ e v w, SimplifyTo e v → SimplifyTo v w → w = v) := by
  intro hcl
  have h1 : SimplifyTo nestedAddInput nestedAddOnce := ⟨8, false, [], by decide⟩
  have h2 : SimplifyTo nestedAddOnce nestedAddTwice :=
    ⟨8, true, [Step.DistributiveProperty], by decide⟩
  exact absurd (hcl _ _ _ h1 h2) (by decide)

/-- C4 fails on the code: simplification can strictly raise the default
complexity.  The driver computes the heuristic each pass but never uses it
(`// TODO: use complexity`), and the ungated `PowerPower` rule rewrites
`(x^a)^b` (complexity 5) to `x^(a*b)` (complexity 8). -/
theorem C4_complexity_increase :
    SimplifyTo nestedExpInput nestedExpResult ∧
      default_complexity nestedExpInput = some 5 ∧
      default_complexity nestedExpResult = some 8 :=
  ⟨⟨5, true, [Step.PowerPower], by decide⟩, by decide, by decide⟩

/-- C3 (amended): the idempotence claim restricted to the trees that satisfy
the spec's structural invariants 1-2 (`flatForm`: no `Add` directly inside an
`Add`, every `Mul` with at least two factors), which hold by construction for
every tree the converter produces.  For such `e`, whenever `simplify e`
terminates with value `v`, running `simplify` on `v` terminates and returns
`v` itself. -/
theorem C3_amended (e v : Expr) (hf : flatForm e = true) (h : SimplifyTo e v) :
    SimplifyTo v v := by
  obtain ⟨fuel, b, s, hrun⟩ := h
  obtain ⟨f2, hfix⟩ := inner_fix fuel e v b s hf hrun
  exact ⟨f2, false, [], hfix⟩

/-- Witness for C3 (amended) at the concrete expression `x + 0`, which
simplifies to `x`; the theorem then yields that `x` simplifies to itself. -/
theorem C3_amended_witness :
    flatForm (Expr.Add (el [sym "x", num 0])) = true ∧
      SimplifyTo (Expr.Add (el [sym "x", num 0])) (sym "x") ∧
      SimplifyTo (sym "x") (sym "x") := by
  refine ⟨by decide, ⟨3, true, [Step.AddZero], by decide⟩, ?_⟩
  exact C3_amended (Expr.Add (el [sym "x", num 0])) (sym "x") (by decide)
    ⟨3, true, [Step.AddZero], by decide⟩

/-- C7: simplifying the expression parsed from
`"(1^0)^(3x+5b^2i)^1^(3a)"` yields the number `1`, and the recorded step
trace is exactly `[PowerPower, PowerOneLeft]` (so it contains `PowerPower`
followed by `PowerOneLeft`), matching the source's `power_rule_steps`
test. -/
theorem C7_power_rule_steps :
    SimplifyStepsTo powerStepsInput (num 1)
      [Step.PowerPower, Step.PowerOneLeft] :=
  ⟨5, true, by decide⟩

end CasRs
